import Mathlib

/-!
Verification of the vizier pyvizier core: the Namespace codec, the namespaced
Metadata store with aliasing views, and the trial-parameter resolver.

Strings are modelled as lists of characters (`List Char`); Python dicts are
modelled as association lists with first-match lookup and in-place replacement
on insert, which preserves the key-uniqueness invariant of real dicts.
-/

namespace Vizier

/-! ### Namespace codec (common.py: `_parse`, `Namespace`) -/

/-- Model of Python `str.split(':')` on a list of characters: splits at every
colon, escaped or not; always returns at least one (possibly empty) fragment. -/
def splitOnColon : List Char → List (List Char)
  | [] => [[]]
  | c :: rest =>
    if c = ':' then [] :: splitOnColon rest
    else
      match splitOnColon rest with
      | [] => [[c]]
      | f :: fs => (c :: f) :: fs

/-- Model of `':'.join(...)` on lists of characters. -/
def joinColon : List (List Char) → List Char
  | [] => []
  | [x] => x
  | x :: xs => x ++ ':' :: joinColon xs

/-- The fragment-rejoining loop of `_parse` (common.py lines 24-38).  The
accumulator `output` is kept in reverse; `join` is the "currently joining" flag.
`frag.getLast? = some backslash` is Python's `frag and frag[-1] == '\\'`
(it implies the fragment is nonempty).  The empty-output cases inside the
`join = true` branches are unreachable from the entry point because `join`
is only ever set after something was appended to `output`. -/
def parseLoop (join : Bool) (output : List (List Char)) :
    List (List Char) → List (List Char)
  | [] => output.reverse
  | frag :: rest =>
    if join ∧ frag.getLast? = some '\\' then
      match output with
      | [] => parseLoop true [] rest
      | last :: prev => parseLoop true ((last ++ ':' :: frag.dropLast) :: prev) rest
    else if join then
      match output with
      | [] => parseLoop false [] rest
      | last :: prev => parseLoop false ((last ++ ':' :: frag) :: prev) rest
    else if frag.getLast? = some '\\' then
      parseLoop true (frag.dropLast :: output) rest
    else
      parseLoop false (frag :: output) rest

/-- Model of `_parse` (common.py lines 17-39): split on all colons, then walk
the fragments re-joining at escaped colons. -/
def parseChars (arg : List Char) : List (List Char) :=
  parseLoop false [] (splitOnColon arg)

/-- `Namespace` (common.py line 42): an ordered immutable sequence of string
components, modelled as lists of characters. -/
structure NS where
  asTuple : List (List Char)
deriving DecidableEq, Repr

/-- `Namespace.__init__` for a string argument (common.py lines 83-88):
strip leading colons, an empty remainder is the empty namespace, otherwise
parse. -/
def NS.ofString (s : String) : NS :=
  let arg := s.toList.dropWhile (fun c => c = ':')
  if arg = [] then ⟨[]⟩ else ⟨parseChars arg⟩

/-- The `_ns_repr_table` translation (common.py line 93): each literal colon
inside a component is re-escaped as backslash-colon. -/
def escapeComponent : List Char → List Char
  | [] => []
  | c :: rest =>
    if c = ':' then '\\' :: ':' :: escapeComponent rest
    else c :: escapeComponent rest

/-- `Namespace.__repr__` (common.py lines 134-136): join the escaped
components with colons. -/
def NS.reprChars (n : NS) : List Char :=
  joinColon (n.asTuple.map escapeComponent)

/-- `Namespace.__add__` (common.py lines 99-114) for a namespace argument:
append the components. -/
def NS.append (n : NS) (other : NS) : NS :=
  ⟨n.asTuple ++ other.asTuple⟩

/-- `Namespace.__add__` for a string argument: the string is one new component,
not parsed. -/
def NS.addStr (n : NS) (s : String) : NS :=
  ⟨n.asTuple ++ [s.toList]⟩

/-- `Namespace.startswith` (common.py lines 138-141): the length-of-prefix
slice equals the prefix. -/
def NS.startswith (n : NS) (pre : NS) : Bool :=
  n.asTuple.take pre.asTuple.length = pre.asTuple

/-- The slice `ns[len(prefix):]` used by `subnamespaces` (common.py line 413). -/
def NS.dropComponents (n : NS) (k : Nat) : NS :=
  ⟨n.asTuple.drop k⟩

example : NS.ofString "a\\:b" = ⟨[['a', ':', 'b']]⟩ := by decide
example : NS.ofString "a:b" = ⟨[['a'], ['b']]⟩ := by decide
example : NS.ofString ":a" = NS.ofString "a" := by decide
example : NS.ofString (String.mk (NS.reprChars ⟨[['a', '\\']]⟩)) = ⟨[['a']]⟩ := by decide
example : NS.reprChars ⟨[['a', ':'], ['b']]⟩ = ['a', '\\', ':', ':', 'b'] := by decide

/-! ### Round-trip lemmas for the codec -/

lemma splitOnColon_nil : splitOnColon [] = [[]] := rfl

lemma splitOnColon_colon (t : List Char) :
    splitOnColon (':' :: t) = [] :: splitOnColon t := by
  simp [splitOnColon]

lemma splitOnColon_ne_nil (l : List Char) : splitOnColon l ≠ [] := by
  match l with
  | [] => simp [splitOnColon]
  | c :: rest =>
    simp only [splitOnColon]
    split
    · simp
    · split <;> simp_all

lemma splitOnColon_cons (c : Char) (t : List Char) (hc : c ≠ ':')
    (g : List Char) (gs : List (List Char)) (hs : splitOnColon t = g :: gs) :
    splitOnColon (c :: t) = (c :: g) :: gs := by
  simp [splitOnColon, hc, hs]

lemma joinColon_cons (x : List Char) (y : List Char) (ys : List (List Char)) :
    joinColon (x :: y :: ys) = x ++ ':' :: joinColon (y :: ys) := rfl

lemma joinColon_splitOnColon (l : List Char) : joinColon (splitOnColon l) = l := by
  induction l with
  | nil => rfl
  | cons c rest ih =>
    rcases hs : splitOnColon rest with _ | ⟨f, fs⟩
    · exact absurd hs (splitOnColon_ne_nil rest)
    rw [hs] at ih
    by_cases hc : c = ':'
    · subst hc
      rw [splitOnColon_colon, hs, joinColon_cons, ih]
      rfl
    · rw [splitOnColon_cons c rest hc f fs hs]
      cases fs with
      | nil => simpa [joinColon] using congrArg (c :: ·) ih
      | cons g gs =>
        rw [joinColon_cons] at ih ⊢
        rw [List.cons_append, ih]

lemma splitOnColon_append (x y : List Char) :
    splitOnColon (x ++ ':' :: y) = splitOnColon x ++ splitOnColon y := by
  induction x with
  | nil => simp [splitOnColon]
  | cons c x' ih =>
    rcases hs : splitOnColon x' with _ | ⟨f, fs⟩
    · exact absurd hs (splitOnColon_ne_nil x')
    by_cases hc : c = ':'
    · subst hc
      rw [List.cons_append, splitOnColon_colon, splitOnColon_colon, ih, List.cons_append]
    · rw [List.cons_append, splitOnColon_cons c _ hc _ _ (ih.trans (by rw [hs]; rfl)),
        splitOnColon_cons c x' hc f fs hs, List.cons_append]
      rfl

/-- The shape of the fragment list produced by splitting an escaped component:
every fragment except the last picks up the trailing escape backslash. -/
def escFrags : List (List Char) → List (List Char)
  | [] => []
  | [p] => [p]
  | p :: ps => (p ++ ['\\']) :: escFrags ps

lemma escFrags_cons (p q : List Char) (ps : List (List Char)) :
    escFrags (p :: q :: ps) = (p ++ ['\\']) :: escFrags (q :: ps) := rfl

lemma escapeComponent_colon (t : List Char) :
    escapeComponent (':' :: t) = '\\' :: ':' :: escapeComponent t := by
  simp [escapeComponent]

lemma escapeComponent_cons (c : Char) (t : List Char) (hc : c ≠ ':') :
    escapeComponent (c :: t) = c :: escapeComponent t := by
  simp [escapeComponent, hc]

lemma splitOnColon_escapeComponent (c : List Char) :
    splitOnColon (escapeComponent c) = escFrags (splitOnColon c) := by
  induction c with
  | nil => rfl
  | cons ch t ih =>
    rcases hs : splitOnColon t with _ | ⟨g, gs⟩
    · exact absurd hs (splitOnColon_ne_nil t)
    rw [hs] at ih
    by_cases hc : ch = ':'
    · subst hc
      rw [escapeComponent_colon, splitOnColon_colon, hs,
        splitOnColon_cons '\\' _ (by decide) [] (splitOnColon (escapeComponent t))
          (splitOnColon_colon (escapeComponent t)), ih]
      rw [show ('\\' :: ([] : List Char)) = [] ++ ['\\'] from rfl]
      cases gs <;> rfl
    · rw [escapeComponent_cons ch t hc, splitOnColon_cons ch t hc g gs hs]
      cases gs with
      | nil =>
        rw [splitOnColon_cons ch _ hc g [] (by rw [ih]; rfl)]
        rfl
      | cons g' gs' =>
        rw [splitOnColon_cons ch _ hc (g ++ ['\\']) (escFrags (g' :: gs'))
          (by rw [ih]; rfl), escFrags_cons]
        rfl

lemma splitOnColon_getLast (c : List Char) :
    ∃ p, (splitOnColon c).getLast? = some p ∧ (p = [] ∨ p.getLast? = c.getLast?) := by
  induction c with
  | nil => exact ⟨[], by simp [splitOnColon]⟩
  | cons ch t ih =>
    obtain ⟨p, hp, hcond⟩ := ih
    rcases hs : splitOnColon t with _ | ⟨g, gs⟩
    · exact absurd hs (splitOnColon_ne_nil t)
    rw [hs] at hp
    have ht : t = joinColon (g :: gs) := by rw [← joinColon_splitOnColon t, hs]
    by_cases hc : ch = ':'
    · subst hc
      refine ⟨p, ?_, ?_⟩
      · rw [splitOnColon_colon, hs, List.getLast?_cons_cons]
        exact hp
      · cases t with
        | nil =>
          left
          rw [splitOnColon_nil] at hs
          injection hs with hg hgs
          subst hg; subst hgs
          have h3 : some ([] : List Char) = some p := hp
          exact (Option.some.inj h3).symm
        | cons x xs =>
          rcases hcond with h | h
          · exact Or.inl h
          · right; rw [h, List.getLast?_cons_cons]
    · rw [splitOnColon_cons ch t hc g gs hs]
      cases gs with
      | nil =>
        have hpg : g = p := by simpa using hp
        subst hpg
        have htg : t = g := by simpa [joinColon] using ht
        refine ⟨ch :: g, by simp, ?_⟩
        right
        rw [htg]
      | cons g' gs' =>
        refine ⟨p, ?_, ?_⟩
        · rw [List.getLast?_cons_cons]
          rw [List.getLast?_cons_cons] at hp
          exact hp
        · rcases hcond with h | h
          · exact Or.inl h
          · right
            rw [h]
            cases t with
            | nil =>
              rw [splitOnColon_nil] at hs
              exact absurd (congrArg List.length hs) (by simp)
            | cons z zs => rw [List.getLast?_cons_cons]

lemma parseLoop_nil (j : Bool) (o : List (List Char)) : parseLoop j o [] = o.reverse := rfl

lemma parseLoop_join_esc (acc : List Char) (prev : List (List Char))
    (frag : List Char) (rest : List (List Char)) (h : frag.getLast? = some '\\') :
    parseLoop true (acc :: prev) (frag :: rest) =
      parseLoop true ((acc ++ ':' :: frag.dropLast) :: prev) rest := by
  simp [parseLoop, h]

lemma parseLoop_join_noesc (acc : List Char) (prev : List (List Char))
    (frag : List Char) (rest : List (List Char)) (h : frag.getLast? ≠ some '\\') :
    parseLoop true (acc :: prev) (frag :: rest) =
      parseLoop false ((acc ++ ':' :: frag) :: prev) rest := by
  simp [parseLoop, h]

lemma parseLoop_nojoin_esc (o : List (List Char))
    (frag : List Char) (rest : List (List Char)) (h : frag.getLast? = some '\\') :
    parseLoop false o (frag :: rest) = parseLoop true (frag.dropLast :: o) rest := by
  simp [parseLoop, h]

lemma parseLoop_nojoin_noesc (o : List (List Char))
    (frag : List Char) (rest : List (List Char)) (h : frag.getLast? ≠ some '\\') :
    parseLoop false o (frag :: rest) = parseLoop false (frag :: o) rest := by
  simp [parseLoop, h]

/-- While the joining flag is set, the loop absorbs the escaped fragments of a
component back into the accumulator, reinserting the literal colons. -/
lemma parseLoop_joinRun (ps : List (List Char)) :
    (∀ p, ps.getLast? = some p → p.getLast? ≠ some '\\') →
    ∀ (acc : List Char) (o rest : List (List Char)), ps ≠ [] →
    parseLoop true (acc :: o) (escFrags ps ++ rest) =
      parseLoop false ((acc ++ ':' :: joinColon ps) :: o) rest := by
  induction ps with
  | nil => intro _ _ _ _ hne; exact absurd rfl hne
  | cons p ps' ih =>
    intro hlast acc o rest _
    cases ps' with
    | nil =>
      have hp : p.getLast? ≠ some '\\' := hlast p (by simp)
      show parseLoop true (acc :: o) (p :: rest) = _
      rw [parseLoop_join_noesc acc o p rest hp]
      rfl
    | cons q ps'' =>
      rw [escFrags_cons, List.cons_append,
        parseLoop_join_esc acc o _ _ (List.getLast?_concat _),
        List.dropLast_concat,
        ih (fun r hr => hlast r (by rwa [List.getLast?_cons_cons])) (acc ++ ':' :: p) o rest
          (by simp),
        joinColon_cons]
      simp [List.append_assoc]

/-- Processing the escaped fragments of one component from the non-joining
state pushes exactly that component onto the output. -/
lemma parseLoop_component (ps : List (List Char)) (hne : ps ≠ [])
    (hlast : ∀ p, ps.getLast? = some p → p.getLast? ≠ some '\\')
    (o rest : List (List Char)) :
    parseLoop false o (escFrags ps ++ rest) =
      parseLoop false (joinColon ps :: o) rest := by
  cases ps with
  | nil => exact absurd rfl hne
  | cons p ps' =>
    cases ps' with
    | nil =>
      have hp : p.getLast? ≠ some '\\' := hlast p (by simp)
      show parseLoop false o (p :: rest) = _
      rw [parseLoop_nojoin_noesc o p rest hp]
      rfl
    | cons q ps'' =>
      rw [escFrags_cons, List.cons_append,
        parseLoop_nojoin_esc o _ _ (List.getLast?_concat _),
        List.dropLast_concat,
        parseLoop_joinRun (q :: ps'')
          (fun r hr => hlast r (by rwa [List.getLast?_cons_cons])) p o rest (by simp),
        joinColon_cons]

/-- The concatenated escaped-fragment runs of a component list. -/
def fragsList : List (List Char) → List (List Char)
  | [] => []
  | c :: cs => escFrags (splitOnColon c) ++ fragsList cs

lemma splitOnColon_joinColon_map (comps : List (List Char)) (hne : comps ≠ []) :
    splitOnColon (joinColon (comps.map escapeComponent)) = fragsList comps := by
  induction comps with
  | nil => exact absurd rfl hne
  | cons c cs ih =>
    cases cs with
    | nil =>
      show splitOnColon (escapeComponent c) = escFrags (splitOnColon c) ++ []
      rw [splitOnColon_escapeComponent, List.append_nil]
    | cons c' cs' =>
      show splitOnColon (escapeComponent c ++ ':' :: joinColon ((c' :: cs').map escapeComponent))
        = _
      rw [splitOnColon_append, splitOnColon_escapeComponent, ih (by simp)]
      rfl

lemma parseLoop_fragsList (comps : List (List Char))
    (h : ∀ c ∈ comps, c.getLast? ≠ some '\\') :
    ∀ o, parseLoop false o (fragsList comps) = o.reverse ++ comps := by
  induction comps with
  | nil => intro o; simp [fragsList, parseLoop_nil]
  | cons c cs ih =>
    intro o
    show parseLoop false o (escFrags (splitOnColon c) ++ fragsList cs) = _
    obtain ⟨p, hp, hcond⟩ := splitOnColon_getLast c
    have hlast : ∀ q, (splitOnColon c).getLast? = some q → q.getLast? ≠ some '\\' := by
      intro q hq
      rw [hp] at hq
      obtain rfl : p = q := Option.some.inj hq
      rcases hcond with rfl | hh
      · simp
      · rw [hh]; exact h c (by simp)
    rw [parseLoop_component (splitOnColon c) (splitOnColon_ne_nil c) hlast o (fragsList cs),
      joinColon_splitOnColon,
      ih (fun d hd => h d (List.mem_cons_of_mem c hd))]
    simp

lemma escapeComponent_head (c : List Char) (hc : c ≠ []) :
    ∃ ch t, escapeComponent c = ch :: t ∧ ch ≠ ':' := by
  cases c with
  | nil => exact absurd rfl hc
  | cons x xs =>
    by_cases hx : x = ':'
    · subst hx
      exact ⟨'\\', ':' :: escapeComponent xs, escapeComponent_colon xs, by decide⟩
    · exact ⟨x, escapeComponent xs, escapeComponent_cons x xs hx, hx⟩

lemma NS.ofString_of_ne_nil (s : String)
    (hs : s.toList.dropWhile (fun c => c = ':') ≠ []) :
    NS.ofString s = ⟨parseChars (s.toList.dropWhile (fun c => c = ':'))⟩ := by
  show (if s.toList.dropWhile (fun c => c = ':') = [] then NS.mk []
    else NS.mk (parseChars (s.toList.dropWhile (fun c => c = ':')))) = _
  rw [if_neg hs]

/-- C1 (amended): decoding the encoded form of a Namespace yields an equal
Namespace provided the first component (if any) is nonempty and no component
ends in a backslash; `Namespace(repr(n)) == n` under these side conditions. -/
theorem namespace_roundtrip_amended (n : NS)
    (hhead : n.asTuple.head? ≠ some [])
    (hbs : ∀ c ∈ n.asTuple, c.getLast? ≠ some '\\') :
    NS.ofString (String.mk n.reprChars) = n := by
  obtain ⟨comps⟩ := n
  cases comps with
  | nil => rfl
  | cons c cs =>
    have hc : c ≠ [] := by
      intro hc
      exact hhead (by rw [hc]; rfl)
    obtain ⟨ech, et, hesc, hne⟩ := escapeComponent_head c hc
    have hjoin : ∃ t', joinColon ((c :: cs).map escapeComponent) = ech :: t' := by
      cases cs with
      | nil => exact ⟨et, by simpa [joinColon] using hesc⟩
      | cons c' cs' =>
        refine ⟨et ++ ':' :: joinColon ((c' :: cs').map escapeComponent), ?_⟩
        show escapeComponent c ++ ':' :: _ = _
        rw [hesc]
        rfl
    obtain ⟨t', ht'⟩ := hjoin
    show NS.ofString (String.mk (joinColon ((c :: cs).map escapeComponent))) = _
    have hdw : (String.mk (joinColon ((c :: cs).map escapeComponent))).toList.dropWhile
        (fun ch => ch = ':') = joinColon ((c :: cs).map escapeComponent) := by
      show (joinColon ((c :: cs).map escapeComponent)).dropWhile (fun ch => ch = ':') = _
      rw [ht', List.dropWhile_cons]
      simp [hne]
    rw [NS.ofString_of_ne_nil _ (by rw [hdw, ht']; simp), hdw]
    have : parseChars (joinColon ((c :: cs).map escapeComponent)) = c :: cs := by
      unfold parseChars
      rw [splitOnColon_joinColon_map (c :: cs) (by simp),
        parseLoop_fragsList (c :: cs) hbs []]
      rfl
    rw [this]

/-- C1 counterexample: the round-trip law fails for arbitrary components — the
single-component Namespace `("a\",)` (component ending in a backslash) encodes
to `a\` whose decoding is the Namespace `("a",)`. -/
theorem namespace_roundtrip_cex :
    NS.ofString (String.mk (NS.reprChars ⟨[['a', '\\']]⟩)) ≠ ⟨[['a', '\\']]⟩ := by
  decide

/-- Witness for the amended round-trip at a concrete namespace with an escaped
colon, an empty middle component, and an interior backslash. -/
theorem namespace_roundtrip_amended_witness :
    (NS.mk [['a', ':'], [], ['b', '\\', 'c']]).asTuple.head? ≠ some [] ∧
    (∀ c ∈ (NS.mk [['a', ':'], [], ['b', '\\', 'c']]).asTuple, c.getLast? ≠ some '\\') ∧
    NS.ofString (String.mk (NS.reprChars (NS.mk [['a', ':'], [], ['b', '\\', 'c']]))) =
      NS.mk [['a', ':'], [], ['b', '\\', 'c']] :=
  ⟨by decide, by decide,
    namespace_roundtrip_amended (NS.mk [['a', ':'], [], ['b', '\\', 'c']])
      (by decide) (by decide)⟩

/-- C8: decoding `a\:b` gives the single component `a:b`; decoding `a:b` gives
the two components `a`, `b`; a leading colon is ignored: decoding `:a` equals
decoding `a`. -/
theorem namespace_decode_examples :
    NS.ofString "a\\:b" = ⟨[['a', ':', 'b']]⟩ ∧
    NS.ofString "a:b" = ⟨[['a'], ['b']]⟩ ∧
    NS.ofString ":a" = NS.ofString "a" := by
  exact ⟨by decide, by decide, by decide⟩

/-! ### Association-list model of Python dicts -/

/-- Python dict lookup: first (and, for key-unique dicts, only) match. -/
def dictGet {κ ν : Type} [DecidableEq κ] : List (κ × ν) → κ → Option ν
  | [], _ => none
  | (k', v') :: t, k => if k' = k then some v' else dictGet t k

/-- Python `d[k] = v`: replace in place if the key exists, append otherwise. -/
def dictInsert {κ ν : Type} [DecidableEq κ] : List (κ × ν) → κ → ν → List (κ × ν)
  | [], k, v => [(k, v)]
  | (k', v') :: t, k, v =>
    if k' = k then (k, v) :: t else (k', v') :: dictInsert t k v

/-- Python `d.update(m)`: insert every pair of `m`, in order. -/
def dictUpdate {κ ν : Type} [DecidableEq κ] (l m : List (κ × ν)) : List (κ × ν) :=
  m.foldl (fun acc kv => dictInsert acc kv.1 kv.2) l

/-- Python `d.pop(k)` / `del d[k]`: remove the binding. -/
def dictRemove {κ ν : Type} [DecidableEq κ] : List (κ × ν) → κ → List (κ × ν)
  | [], _ => []
  | (k', v') :: t, k => if k' = k then t else (k', v') :: dictRemove t k

lemma dictGet_dictInsert {κ ν : Type} [DecidableEq κ]
    (l : List (κ × ν)) (k : κ) (v : ν) (q : κ) :
    dictGet (dictInsert l k v) q = if k = q then some v else dictGet l q := by
  induction l with
  | nil => by_cases hq : k = q <;> simp [dictInsert, dictGet, hq]
  | cons e t ih =>
    obtain ⟨k', v'⟩ := e
    by_cases hk : k' = k
    · subst hk
      by_cases hq : k' = q <;> simp [dictInsert, dictGet, hq]
    · by_cases hq : k' = q
      · subst hq
        have : ¬k = k' := fun hh => hk hh.symm
        simp [dictInsert, dictGet, hk, this]
      · simp [dictInsert, dictGet, hk, hq, ih]

lemma dictGet_mem_keys {κ ν : Type} [DecidableEq κ]
    (l : List (κ × ν)) (q : κ) (v : ν) (h : dictGet l q = some v) :
    q ∈ l.map Prod.fst := by
  induction l with
  | nil => simp [dictGet] at h
  | cons e t ih =>
    obtain ⟨k', v'⟩ := e
    by_cases hq : k' = q
    · subst hq; simp
    · simp [dictGet, hq] at h
      simpa using Or.inr (ih h)

lemma dictGet_dictUpdate {κ ν : Type} [DecidableEq κ]
    (m : List (κ × ν)) (hm : (m.map Prod.fst).Nodup) (l : List (κ × ν)) (q : κ) :
    dictGet (dictUpdate l m) q =
      match dictGet m q with
      | some v => some v
      | none => dictGet l q := by
  induction m generalizing l with
  | nil => simp [dictUpdate, dictGet]
  | cons e m' ih =>
    obtain ⟨k0, v0⟩ := e
    simp only [List.map_cons, List.nodup_cons] at hm
    obtain ⟨hk0, hm'⟩ := hm
    have hstep : dictUpdate l ((k0, v0) :: m') = dictUpdate (dictInsert l k0 v0) m' := rfl
    rw [hstep, ih hm']
    by_cases hq : k0 = q
    · subst hq
      have hnone : dictGet m' k0 = none := by
        cases hg : dictGet m' k0 with
        | none => rfl
        | some w => exact absurd (dictGet_mem_keys m' k0 w hg) hk0
      simp [hnone, dictGet, dictGet_dictInsert]
    · cases hg : dictGet m' q with
      | none => simp [dictGet, hq, dictGet_dictInsert, hg]
      | some w => simp [dictGet, hq, hg]

lemma dictInsert_keys_sub {κ ν : Type} [DecidableEq κ]
    (l : List (κ × ν)) (k : κ) (v : ν) (q : κ)
    (h : q ∈ (dictInsert l k v).map Prod.fst) : q ∈ l.map Prod.fst ∨ q = k := by
  induction l with
  | nil =>
    right
    rw [show dictInsert ([] : List (κ × ν)) k v = [(k, v)] from rfl,
      List.map_cons, List.map_nil, List.mem_singleton] at h
    exact h
  | cons e t ih =>
    obtain ⟨k', v'⟩ := e
    by_cases hk : k' = k
    · subst hk
      rw [show dictInsert ((k', v') :: t) k' v = (k', v) :: t from by simp [dictInsert],
        List.map_cons, List.mem_cons] at h
      rcases h with h | h
      · exact Or.inr h
      · exact Or.inl (by rw [List.map_cons, List.mem_cons]; exact Or.inr h)
    · rw [show dictInsert ((k', v') :: t) k v = (k', v') :: dictInsert t k v from by
        simp [dictInsert, hk], List.map_cons, List.mem_cons] at h
      rcases h with h | h
      · exact Or.inl (by rw [List.map_cons, List.mem_cons]; exact Or.inl h)
      · rcases ih h with h' | h'
        · exact Or.inl (by rw [List.map_cons, List.mem_cons]; exact Or.inr h')
        · exact Or.inr h'

lemma dictInsert_keys_nodup {κ ν : Type} [DecidableEq κ]
    (l : List (κ × ν)) (k : κ) (v : ν) (h : (l.map Prod.fst).Nodup) :
    ((dictInsert l k v).map Prod.fst).Nodup := by
  induction l with
  | nil => simp [dictInsert]
  | cons e t ih =>
    obtain ⟨k', v'⟩ := e
    rw [List.map_cons, List.nodup_cons] at h
    obtain ⟨hk', ht⟩ := h
    by_cases hk : k' = k
    · subst hk
      rw [show dictInsert ((k', v') :: t) k' v = (k', v) :: t from by simp [dictInsert],
        List.map_cons, List.nodup_cons]
      exact ⟨hk', ht⟩
    · rw [show dictInsert ((k', v') :: t) k v = (k', v') :: dictInsert t k v from by
        simp [dictInsert, hk], List.map_cons, List.nodup_cons]
      refine ⟨?_, ih ht⟩
      intro hmem
      rcases dictInsert_keys_sub t k v k' hmem with h' | h'
      · exact hk' h'
      · exact hk h'

/-! ### Metadata store model (common.py: `Metadata`)

A Python `Metadata` object is a view: a reference to a shared backing
`_stores` structure plus a current namespace.  The backing structures live in
an explicit heap so that sharing (`ns`/`abs_ns`/`__copy__` return views over
the *same* `_stores`) and non-sharing (`Metadata(mm)` builds a *fresh*
`_stores`) are both observable. -/

/-- Metadata values (`MetadataValue = Union[str, any_pb2.Any, Message]`):
a plain string, an Any-style payload packing a message of some type, or a
typed proto message.  Proto types are identified by name, payloads modelled
as strings. -/
inductive MValue where
  | vstr (s : String)
  | vany (t : String) (payload : String)
  | vmsg (t : String) (payload : String)
deriving DecidableEq, Repr

/-- `_MetadataSingleNameSpace`: the flat dict of one namespace. -/
abbrev SingleNs := List (String × MValue)

/-- `_stores`: a defaultdict from namespace to per-namespace dict. -/
abbrev Stores := List (NS × SingleNs)

/-- A Metadata view: the shared backing cell it references plus its own
current namespace (`_namespace`). -/
structure MetadataView where
  ref : Nat
  curNs : NS
deriving DecidableEq, Repr

/-- The heap of backing `_stores` structures. -/
structure Heap where
  cells : List Stores
deriving DecidableEq, Repr

def Heap.cell (h : Heap) (r : Nat) : Stores := h.cells.getD r []

def Heap.updateCell (h : Heap) (r : Nat) (f : Stores → Stores) : Heap :=
  ⟨h.cells.set r (f (h.cells.getD r []))⟩

/-- defaultdict read `self._stores[ns]`: a missing namespace is an empty dict. -/
def storesGetNs (st : Stores) (ns : NS) : SingleNs := (dictGet st ns).getD []

/-- `Metadata.__init__` (common.py lines 221-238): allocate a fresh backing
structure whose root namespace dict is `{}` updated with the initial pairs. -/
def metadataInit (h : Heap) (initial : SingleNs) : Heap × MetadataView :=
  (⟨h.cells ++ [dictInsert [] (NS.mk []) (dictUpdate [] initial)]⟩,
   ⟨h.cells.length, NS.mk []⟩)

/-- `Metadata._copy_core` (common.py lines 444-457): share the backing cell,
change only the current namespace. -/
def copyCore (v : MetadataView) (ns : NS) : MetadataView := ⟨v.ref, ns⟩

/-- `Metadata.ns` (common.py lines 267-291), Namespace argument. -/
def metadataNs (v : MetadataView) (c : NS) : MetadataView :=
  copyCore v (v.curNs.append c)

/-- `Metadata.ns`, string argument: one new unparsed component. -/
def metadataNsStr (v : MetadataView) (s : String) : MetadataView :=
  copyCore v (v.curNs.addStr s)

/-- `Metadata.abs_ns` (common.py lines 240-265), Namespace argument. -/
def metadataAbsNs (v : MetadataView) (ns : NS) : MetadataView := copyCore v ns

/-- `Metadata.abs_ns`, string argument: the string is parsed. -/
def metadataAbsNsStr (v : MetadataView) (s : String) : MetadataView :=
  copyCore v (NS.ofString s)

/-- `Metadata.__copy__` (common.py lines 434-440). -/
def metadataCopy (v : MetadataView) : MetadataView := copyCore v v.curNs

/-- `Metadata.__setitem__` (common.py lines 422-423): write through the view
into the shared backing cell, at the view's current namespace. -/
def metadataSet (h : Heap) (v : MetadataView) (k : String) (val : MValue) : Heap :=
  h.updateCell v.ref (fun st =>
    dictInsert st v.curNs (dictInsert (storesGetNs st v.curNs) k val))

/-- `Metadata.__getitem__` (common.py lines 419-420), with a missing key as
`none` (Python raises `KeyError`). -/
def metadataGetItem (h : Heap) (v : MetadataView) (k : String) : Option MValue :=
  dictGet (storesGetNs (h.cell v.ref) v.curNs) k

/-- `Metadata(mm)` on an existing view `mm`: `dict(mm)` iterates only `mm`'s
current-namespace items, into a fresh backing structure's root namespace. -/
def metadataOfView (h : Heap) (mm : MetadataView) : Heap × MetadataView :=
  metadataInit h (storesGetNs (h.cell mm.ref) mm.curNs)

lemma cell_updateCell_self (h : Heap) (r : Nat) (f : Stores → Stores)
    (hr : r < h.cells.length) :
    (h.updateCell r f).cell r = f (h.cell r) := by
  unfold Heap.updateCell Heap.cell
  simp [List.getD, List.getElem?_set_self, hr]

lemma cell_updateCell_ne (h : Heap) (r : Nat) (f : Stores → Stores)
    (r' : Nat) (hne : r' ≠ r) :
    (h.updateCell r f).cell r' = h.cell r' := by
  unfold Heap.updateCell Heap.cell
  simp [List.getD, List.getElem?_set_ne (fun hh => hne hh.symm)]

lemma updateCell_length (h : Heap) (r : Nat) (f : Stores → Stores) :
    (h.updateCell r f).cells.length = h.cells.length := by
  simp [Heap.updateCell]

lemma storesGetNs_dictInsert_self (st : Stores) (ns : NS) (d : SingleNs) :
    storesGetNs (dictInsert st ns d) ns = d := by
  unfold storesGetNs
  rw [dictGet_dictInsert, if_pos rfl]
  rfl

lemma storesGetNs_dictInsert_ne (st : Stores) (ns ns' : NS) (d : SingleNs)
    (h : ns ≠ ns') :
    storesGetNs (dictInsert st ns d) ns' = storesGetNs st ns' := by
  unfold storesGetNs
  rw [dictGet_dictInsert, if_neg h]

lemma cell_append_new (cells : List Stores) (s : Stores) :
    Heap.cell ⟨cells ++ [s]⟩ cells.length = s := by
  unfold Heap.cell
  induction cells with
  | nil => rfl
  | cons c t _ => simp [List.getD]

lemma cell_append_old (cells : List Stores) (s : Stores) (r : Nat)
    (hr : r < cells.length) :
    Heap.cell ⟨cells ++ [s]⟩ r = Heap.cell ⟨cells⟩ r := by
  unfold Heap.cell
  simp [List.getD, List.getElem?_append_left hr]

/-- C6: `ns`, `abs_ns` and shallow copy return views over the same backing
cell; the copy keeps the current namespace; and a key written through one
view is observable through any view with the same backing cell at the
matching absolute namespace. -/
theorem metadata_view_sharing
    (h : Heap) (v v1 v2 : MetadataView) (c a : NS) (s : String)
    (k : String) (val : MValue)
    (href : v1.ref = v2.ref) (hns : v1.curNs = v2.curNs)
    (hlt : v1.ref < h.cells.length) :
    (metadataNs v c).ref = v.ref ∧ (metadataNsStr v s).ref = v.ref ∧
    (metadataAbsNs v a).ref = v.ref ∧ (metadataAbsNsStr v s).ref = v.ref ∧
    (metadataCopy v).ref = v.ref ∧ (metadataCopy v).curNs = v.curNs ∧
    metadataGetItem (metadataSet h v1 k val) v2 k = some val := by
  refine ⟨rfl, rfl, rfl, rfl, rfl, rfl, ?_⟩
  unfold metadataGetItem metadataSet
  rw [← href, ← hns, cell_updateCell_self h v1.ref _ hlt]
  unfold storesGetNs
  rw [dictGet_dictInsert, if_pos rfl]
  simp [dictGet_dictInsert]

/-- Witness for C6 at a concrete heap: one backing cell, a write through the
`ns`-derived view in namespace `x`, read back through an `abs_ns`-derived
view of the same origin. -/
theorem metadata_view_sharing_witness :
    metadataGetItem
      (metadataSet (Heap.mk [[]]) (metadataNsStr ⟨0, NS.mk []⟩ "x") "foo"
        (MValue.vstr "bar"))
      (metadataAbsNs ⟨0, NS.mk []⟩ (NS.mk [['x']])) "foo" = some (MValue.vstr "bar") :=
  (metadata_view_sharing (Heap.mk [[]]) ⟨0, NS.mk []⟩
    (metadataNsStr ⟨0, NS.mk []⟩ "x") (metadataAbsNs ⟨0, NS.mk []⟩ (NS.mk [['x']]))
    (NS.mk []) (NS.mk []) "x" "foo" (MValue.vstr "bar")
    rfl (by decide) (by decide)).2.2.2.2.2.2

/-- C10: `Metadata(mm)` allocates a fresh backing structure: the new view is
at the root namespace of a new cell; its root dict holds exactly `mm`'s
current-namespace pairs; every other namespace of the new backing is empty;
and writes through the new object leave `mm`'s backing cell untouched. -/
theorem metadata_constructor_fresh
    (h : Heap) (mm : MetadataView) (hlt : mm.ref < h.cells.length)
    (hnodup : ((storesGetNs (h.cell mm.ref) mm.curNs).map Prod.fst).Nodup) :
    ((metadataOfView h mm).2.curNs = NS.mk [] ∧
     (metadataOfView h mm).2.ref ≠ mm.ref) ∧
    (∀ k, metadataGetItem (metadataOfView h mm).1 (metadataOfView h mm).2 k =
       dictGet (storesGetNs (h.cell mm.ref) mm.curNs) k) ∧
    (∀ ns, ns ≠ NS.mk [] →
       storesGetNs ((metadataOfView h mm).1.cell (metadataOfView h mm).2.ref) ns = []) ∧
    (∀ k val,
       (metadataSet (metadataOfView h mm).1 (metadataOfView h mm).2 k val).cell mm.ref =
         h.cell mm.ref) := by
  have href : (metadataOfView h mm).2.ref = h.cells.length := rfl
  have hrne : mm.ref ≠ (metadataOfView h mm).2.ref := by
    rw [href]
    intro hh
    rw [hh] at hlt
    exact absurd hlt (lt_irrefl _)
  have hcellnew : (metadataOfView h mm).1.cell (metadataOfView h mm).2.ref =
      dictInsert [] (NS.mk []) (dictUpdate [] (storesGetNs (h.cell mm.ref) mm.curNs)) := by
    unfold metadataOfView metadataInit
    exact cell_append_new h.cells _
  refine ⟨⟨rfl, fun hh => hrne hh.symm⟩, ?_, ?_, ?_⟩
  · intro k
    unfold metadataGetItem
    rw [hcellnew]
    rw [show (metadataOfView h mm).2.curNs = NS.mk [] from rfl,
      storesGetNs_dictInsert_self,
      dictGet_dictUpdate (storesGetNs (h.cell mm.ref) mm.curNs) hnodup [] k]
    cases dictGet (storesGetNs (h.cell mm.ref) mm.curNs) k <;> rfl
  · intro ns hns
    rw [hcellnew, storesGetNs_dictInsert_ne _ _ _ _ (fun hh => hns hh.symm)]
    rfl
  · intro k val
    unfold metadataSet
    rw [cell_updateCell_ne _ _ _ mm.ref hrne]
    unfold metadataOfView metadataInit
    exact cell_append_old h.cells _ mm.ref hlt

/-- Witness for C10: a two-namespace source view; the copy keeps only the
current namespace's pair, drops the other namespace, and writing through the
copy does not affect the source cell. -/
theorem metadata_constructor_fresh_witness :
    (metadataGetItem
      (metadataOfView
          (Heap.mk [[(NS.mk [['x']], [("foo", MValue.vstr "f")]),
                     (NS.mk [['y']], [("bar", MValue.vstr "g")])]]
        : Heap) ⟨0, NS.mk [['x']]⟩).1
      (metadataOfView
          (Heap.mk [[(NS.mk [['x']], [("foo", MValue.vstr "f")]),
                     (NS.mk [['y']], [("bar", MValue.vstr "g")])]]
        : Heap) ⟨0, NS.mk [['x']]⟩).2 "foo" = some (MValue.vstr "f")) ∧
    (∀ ns, ns ≠ NS.mk [] →
      storesGetNs
        ((metadataOfView
            (Heap.mk [[(NS.mk [['x']], [("foo", MValue.vstr "f")]),
                       (NS.mk [['y']], [("bar", MValue.vstr "g")])]]
          : Heap) ⟨0, NS.mk [['x']]⟩).1.cell
          (metadataOfView
            (Heap.mk [[(NS.mk [['x']], [("foo", MValue.vstr "f")]),
                       (NS.mk [['y']], [("bar", MValue.vstr "g")])]]
          : Heap) ⟨0, NS.mk [['x']]⟩).2.ref) ns = []) := by
  refine ⟨?_, ?_⟩
  · rw [(metadata_constructor_fresh
      (Heap.mk [[(NS.mk [['x']], [("foo", MValue.vstr "f")]),
                 (NS.mk [['y']], [("bar", MValue.vstr "g")])]])
      ⟨0, NS.mk [['x']]⟩ (by decide) (by decide)).2.1 "foo"]
    decide
  · exact (metadata_constructor_fresh
      (Heap.mk [[(NS.mk [['x']], [("foo", MValue.vstr "f")]),
                 (NS.mk [['y']], [("bar", MValue.vstr "g")])]])
      ⟨0, NS.mk [['x']]⟩ (by decide) (by decide)).2.2.1

/-! ### `Metadata.get` (common.py lines 337-388) -/

/-- Python class objects passed as `cls` to `Metadata.get`: `str`, `int`, or a
concrete proto message class identified by type name. -/
inductive Cls where
  | strCls
  | intCls
  | msgCls (t : String)
deriving DecidableEq, Repr

/-- The value returned by `get`. -/
inductive OutVal where
  | oStr (s : String)
  | oInt (n : Int)
  | oMsg (t : String) (payload : String)
  | oAny (t : String) (payload : String)
deriving DecidableEq, Repr

/-- One Python call outcome: a returned value or a raised exception. -/
inductive PyResult (α : Type) where
  | ok (a : α)
  | exn
deriving DecidableEq, Repr

/-- `isinstance(value, cls)` on stored metadata values. -/
def isinst : MValue → Cls → Bool
  | .vstr _, .strCls => true
  | .vmsg t _, .msgCls t' => t = t'
  | _, _ => false

/-- A stored value passed through unchanged (the `isinstance` branch). -/
def outOf : MValue → OutVal
  | .vstr s => .oStr s
  | .vany t p => .oAny t p
  | .vmsg t p => .oMsg t p

/-- Model of the Python built-in `int` on decimal strings: an optional
leading minus sign followed by digits (kernel-reducible replacement for
`String.toInt?`). -/
def digitVal (c : Char) : Option Nat :=
  if '0' ≤ c ∧ c ≤ '9' then some (c.toNat - '0'.toNat) else none

def parseDigitsAux : List Char → Nat → Option Nat
  | [], acc => some acc
  | c :: rest, acc =>
    match digitVal c with
    | some d => parseDigitsAux rest (acc * 10 + d)
    | none => none

def pyInt (s : String) : Option Int :=
  match s.toList with
  | [] => none
  | '-' :: rest =>
    if rest = [] then none else (parseDigitsAux rest 0).map (fun n => -(n : Int))
  | cs => (parseDigitsAux cs 0).map (fun n => (n : Int))

/-- `cls(value)`: construct `cls` from a stored value.  The string form of a
message is modelled as its text representation; `int()` of a non-numeric
string or of a message raises; a proto class cannot be constructed from a
positional argument. -/
def construct : Cls → MValue → PyResult OutVal
  | .strCls, .vstr s => .ok (.oStr s)
  | .strCls, .vmsg t p => .ok (.oStr (t ++ ":" ++ p))
  | .strCls, .vany t p => .ok (.oStr (t ++ ":" ++ p))
  | .intCls, .vstr s =>
    match pyInt s with
    | some n => .ok (.oInt n)
    | none => .exn
  | .intCls, _ => .exn
  | .msgCls _, _ => .exn

/-- `Metadata.get` (common.py lines 375-388) on the view's current store:
try/except lookup returning the default on a miss, the `isinstance` fast
path, the Any-unpack branch (`cls()` then `value.Unpack(message)`, where a
successful unpack requires the packed type to equal `cls` and a failed unpack
returns `None`; unpacking into a non-message target raises, per the protobuf
collaborator), and the final `cls(value)` conversion. -/
def getCore (store : SingleNs) (key : String) (dflt : Option OutVal) (cls : Cls) :
    PyResult (Option OutVal) :=
  match dictGet store key with
  | none => .ok dflt
  | some value =>
    if isinst value cls then .ok (some (outOf value))
    else
      match value with
      | .vany t p =>
        match cls with
        | .msgCls t' => if t = t' then .ok (some (.oMsg t' p)) else .ok none
        | _ => .exn
      | _ =>
        match construct cls value with
        | .ok o => .ok (some o)
        | .exn => .exn

/-- C7: `get(key, default, cls)` returns the default exactly when the key is
absent (when present, the result does not depend on the default); a value
already of type `cls` is returned unchanged; an Any-style payload with a
message `cls` unpacks on a type match and yields `None` on unpack failure;
otherwise the value is converted by constructing `cls` from it and a
conversion failure propagates. -/
theorem metadata_get_contract (store : SingleNs) (key : String)
    (dflt : Option OutVal) (cls : Cls) :
    (dictGet store key = none → getCore store key dflt cls = .ok dflt) ∧
    (∀ v d', dictGet store key = some v →
       getCore store key dflt cls = getCore store key d' cls) ∧
    (∀ v, dictGet store key = some v → isinst v cls = true →
       getCore store key dflt cls = .ok (some (outOf v))) ∧
    (∀ t p t', dictGet store key = some (.vany t p) → cls = .msgCls t' →
       getCore store key dflt cls =
         (if t = t' then .ok (some (.oMsg t' p)) else .ok none)) ∧
    (∀ v, dictGet store key = some v → isinst v cls = false →
       (∀ t p, v ≠ .vany t p) →
       getCore store key dflt cls =
         (match construct cls v with
          | .ok o => .ok (some o)
          | .exn => .exn)) := by
  refine ⟨?_, ?_, ?_, ?_, ?_⟩
  · intro h
    unfold getCore
    rw [h]
  · intro v d' h
    unfold getCore
    rw [h]
  · intro v h hinst
    simp [getCore, h, hinst]
  · intro t p t' h hcls
    unfold getCore
    rw [h, hcls]
    rfl
  · intro v h hinst hnotany
    cases v with
    | vstr s => simp [getCore, h, hinst]
    | vany t p => exact absurd rfl (hnotany t p)
    | vmsg t p => simp [getCore, h, hinst]

/-- Witness for C7: an Any packing a Duration unpacks to the Duration for a
matching message class; an Any packing a different type yields `None`; a
numeric string converts to `int`; a non-numeric string raises on `int`
conversion; a missing key returns the default. -/
theorem metadata_get_contract_witness :
    getCore [("any", MValue.vany "Duration" "60")] "any" none (Cls.msgCls "Duration") =
      .ok (some (.oMsg "Duration" "60")) ∧
    getCore [("any", MValue.vany "Duration" "60")] "any" none (Cls.msgCls "Status") =
      .ok none ∧
    getCore [("int", MValue.vstr "60")] "int" none Cls.intCls = .ok (some (.oInt 60)) ∧
    getCore [("bad", MValue.vstr "abc")] "bad" none Cls.intCls = .exn ∧
    getCore [] "missing" (some (.oStr "dv")) Cls.strCls = .ok (some (.oStr "dv")) := by
  refine ⟨?_, ?_, ?_, ?_, ?_⟩
  · rw [(metadata_get_contract [("any", MValue.vany "Duration" "60")] "any" none
      (Cls.msgCls "Duration")).2.2.2.1 "Duration" "60" "Duration" (by decide) rfl]
    decide
  · rw [(metadata_get_contract [("any", MValue.vany "Duration" "60")] "any" none
      (Cls.msgCls "Status")).2.2.2.1 "Duration" "60" "Status" (by decide) rfl]
    decide
  · rw [(metadata_get_contract [("int", MValue.vstr "60")] "int" none
      Cls.intCls).2.2.2.2 (MValue.vstr "60") (by decide) (by decide)
      (fun t p h => MValue.noConfusion h)]
    decide
  · rw [(metadata_get_contract [("bad", MValue.vstr "abc")] "bad" none
      Cls.intCls).2.2.2.2 (MValue.vstr "abc") (by decide) (by decide)
      (fun t p h => MValue.noConfusion h)]
    decide
  · exact (metadata_get_contract [] "missing" (some (.oStr "dv")) Cls.strCls).1 rfl

/-! ### `Metadata.attach` (common.py lines 400-416, 464-487) -/

/-- `Metadata.subnamespaces` (common.py lines 400-416): the relative suffix
of every namespace entry with at least one key that begins with the current
namespace. -/
def subnamespacesOf (st : Stores) (cur : NS) : List NS :=
  st.filterMap (fun e =>
    if e.2 ≠ [] ∧ e.1.startswith cur then
      some (e.1.dropComponents cur.asTuple.length)
    else none)

/-- `Metadata.attach` (common.py lines 464-487): for every subnamespace of
`other` (computed once, up front), merge other's dict at that relative path
into self's backing at `self.namespace + path`, key by key; each merge step
reads `other`'s live backing cell. -/
def metadataAttach (h : Heap) (sv ov : MetadataView) : Heap :=
  (subnamespacesOf (h.cell ov.ref) ov.curNs).foldl
    (fun h' p =>
      h'.updateCell sv.ref (fun st =>
        dictInsert st (sv.curNs.append p)
          (dictUpdate (storesGetNs st (sv.curNs.append p))
            (storesGetNs (h'.cell ov.ref) (ov.curNs.append p)))))
    h

/-- Proof-side pure form of the attach fold, over one backing structure. -/
def attachStores (base oc : Stores) (selfNs otherNs : NS) (subs : List NS) : Stores :=
  subs.foldl (fun st p =>
    dictInsert st (selfNs.append p)
      (dictUpdate (storesGetNs st (selfNs.append p))
        (storesGetNs oc (otherNs.append p)))) base

lemma NS.append_inj (a : NS) {p q : NS} (h : a.append p = a.append q) : p = q := by
  obtain ⟨pl⟩ := p
  obtain ⟨ql⟩ := q
  have h' : a.asTuple ++ pl = a.asTuple ++ ql := congrArg NS.asTuple h
  rw [show pl = ql from List.append_cancel_left h']

lemma NS.append_startswith (cur p : NS) : (cur.append p).startswith cur = true := by
  simp [NS.startswith, NS.append, List.take_left']

lemma NS.dropComponents_append (cur p : NS) :
    (cur.append p).dropComponents cur.asTuple.length = p := by
  obtain ⟨pl⟩ := p
  simp [NS.append, NS.dropComponents, List.drop_left']

lemma NS.startswith_append_drop (n cur : NS) (h : n.startswith cur = true) :
    cur.append (n.dropComponents cur.asTuple.length) = n := by
  obtain ⟨nl⟩ := n
  obtain ⟨cl⟩ := cur
  simp only [NS.startswith, decide_eq_true_eq] at h
  simp only [NS.append, NS.dropComponents, NS.mk.injEq]
  nth_rewrite 1 [← h]
  exact List.take_append_drop _ _

lemma dictGet_mem {κ ν : Type} [DecidableEq κ]
    (l : List (κ × ν)) (q : κ) (v : ν) (h : dictGet l q = some v) : (q, v) ∈ l := by
  induction l with
  | nil => simp [dictGet] at h
  | cons e t ih =>
    obtain ⟨k', v'⟩ := e
    by_cases hq : k' = q
    · subst hq
      rw [show dictGet ((k', v') :: t) k' = some v' from by simp [dictGet]] at h
      obtain rfl : v' = v := Option.some.inj h
      exact List.mem_cons_self _ _
    · rw [show dictGet ((k', v') :: t) q = dictGet t q from by simp [dictGet, hq]] at h
      exact List.mem_cons_of_mem _ (ih h)

lemma mem_dictGet {κ ν : Type} [DecidableEq κ]
    (l : List (κ × ν)) (hnd : (l.map Prod.fst).Nodup) (q : κ) (v : ν)
    (h : (q, v) ∈ l) : dictGet l q = some v := by
  induction l with
  | nil => simp at h
  | cons e t ih =>
    obtain ⟨k', v'⟩ := e
    rw [List.map_cons, List.nodup_cons] at hnd
    obtain ⟨hk', ht⟩ := hnd
    rcases List.mem_cons.mp h with h | h
    · obtain ⟨h1, h2⟩ := Prod.mk.injEq .. ▸ h
      simp [dictGet, h1.symm, h2]
    · have hq : k' ≠ q := by
        intro hh
        subst hh
        exact hk' (List.mem_map.mpr ⟨(k', v), h, rfl⟩)
      rw [show dictGet ((k', v') :: t) q = dictGet t q from by simp [dictGet, hq]]
      exact ih ht h

lemma mem_subnamespacesOf (st : Stores) (cur : NS) (p : NS) :
    p ∈ subnamespacesOf st cur ↔ ∃ d, (cur.append p, d) ∈ st ∧ d ≠ [] := by
  induction st with
  | nil => simp [subnamespacesOf]
  | cons e t ih =>
    obtain ⟨ns, d⟩ := e
    by_cases hcond : d ≠ [] ∧ ns.startswith cur
    · obtain ⟨hd, hsw⟩ := hcond
      rw [show subnamespacesOf ((ns, d) :: t) cur =
          ns.dropComponents cur.asTuple.length :: subnamespacesOf t cur from by
        simp [subnamespacesOf, List.filterMap_cons, hd, hsw]]
      constructor
      · intro hmem
        rcases List.mem_cons.mp hmem with h | h
        · refine ⟨d, ?_, hd⟩
          rw [h, NS.startswith_append_drop ns cur hsw]
          exact List.mem_cons_self _ _
        · obtain ⟨d', hmem', hd'⟩ := ih.mp h
          exact ⟨d', List.mem_cons_of_mem _ hmem', hd'⟩
      · rintro ⟨d', hmem', hd'⟩
        rcases List.mem_cons.mp hmem' with h | h
        · have h1 : cur.append p = ns := congrArg Prod.fst h
          exact List.mem_cons.mpr (Or.inl (by rw [← h1, NS.dropComponents_append]))
        · exact List.mem_cons_of_mem _ (ih.mpr ⟨d', h, hd'⟩)
    · rw [show subnamespacesOf ((ns, d) :: t) cur = subnamespacesOf t cur from by
        simp only [subnamespacesOf, List.filterMap_cons, if_neg hcond]]
      constructor
      · intro hmem
        obtain ⟨d', hmem', hd'⟩ := ih.mp hmem
        exact ⟨d', List.mem_cons_of_mem _ hmem', hd'⟩
      · rintro ⟨d', hmem', hd'⟩
        rcases List.mem_cons.mp hmem' with h | h
        · exfalso
          have h1 : cur.append p = ns := congrArg Prod.fst h
          have h2 : d' = d := congrArg Prod.snd h
          exact hcond ⟨by rw [← h2]; exact hd', by rw [← h1]; exact NS.append_startswith cur p⟩
        · exact ih.mpr ⟨d', h, hd'⟩

lemma subnamespacesOf_nodup (st : Stores) (cur : NS)
    (h : (st.map Prod.fst).Nodup) : (subnamespacesOf st cur).Nodup := by
  induction st with
  | nil => simp [subnamespacesOf]
  | cons e t ih =>
    obtain ⟨ns, d⟩ := e
    rw [List.map_cons, List.nodup_cons] at h
    obtain ⟨hns, ht⟩ := h
    by_cases hcond : d ≠ [] ∧ ns.startswith cur
    · obtain ⟨hd, hsw⟩ := hcond
      rw [show subnamespacesOf ((ns, d) :: t) cur =
          ns.dropComponents cur.asTuple.length :: subnamespacesOf t cur from by
        simp [subnamespacesOf, List.filterMap_cons, hd, hsw]]
      rw [List.nodup_cons]
      refine ⟨?_, ih ht⟩
      intro hmem
      obtain ⟨d', hmem', _⟩ := (mem_subnamespacesOf t cur _).mp hmem
      rw [NS.startswith_append_drop ns cur hsw] at hmem'
      exact hns (List.mem_map.mpr ⟨(ns, d'), hmem', rfl⟩)
    · rw [show subnamespacesOf ((ns, d) :: t) cur = subnamespacesOf t cur from by
        simp only [subnamespacesOf, List.filterMap_cons, if_neg hcond]]
      exact ih ht

lemma attach_fold_cell (sv ov : MetadataView) (hne : sv.ref ≠ ov.ref) (oc : Stores) :
    ∀ (subs : List NS) (h0 : Heap), h0.cell ov.ref = oc → sv.ref < h0.cells.length →
    ∀ q, (subs.foldl
      (fun h' p => h'.updateCell sv.ref (fun st =>
        dictInsert st (sv.curNs.append p)
          (dictUpdate (storesGetNs st (sv.curNs.append p))
            (storesGetNs (h'.cell ov.ref) (ov.curNs.append p))))) h0).cell q =
      if q = sv.ref then attachStores (h0.cell sv.ref) oc sv.curNs ov.curNs subs
      else h0.cell q := by
  intro subs
  induction subs with
  | nil =>
    intro h0 hoc hlt q
    by_cases hq : q = sv.ref
    · subst hq; rw [if_pos rfl]; rfl
    · rw [if_neg hq]; rfl
  | cons p ps ih =>
    intro h0 hoc hlt q
    rw [List.foldl_cons]
    have hovne : ov.ref ≠ sv.ref := fun hh => hne hh.symm
    have hoc1 : (h0.updateCell sv.ref (fun st =>
        dictInsert st (sv.curNs.append p)
          (dictUpdate (storesGetNs st (sv.curNs.append p))
            (storesGetNs (h0.cell ov.ref) (ov.curNs.append p))))).cell ov.ref = oc := by
      rw [cell_updateCell_ne _ _ _ _ hovne]
      exact hoc
    have hlt1 : sv.ref < (h0.updateCell sv.ref (fun st =>
        dictInsert st (sv.curNs.append p)
          (dictUpdate (storesGetNs st (sv.curNs.append p))
            (storesGetNs (h0.cell ov.ref) (ov.curNs.append p))))).cells.length := by
      rw [updateCell_length]
      exact hlt
    rw [ih _ hoc1 hlt1 q]
    by_cases hq : q = sv.ref
    · rw [if_pos hq, if_pos hq]
      rw [cell_updateCell_self _ _ _ hlt, hoc]
      rfl
    · rw [if_neg hq, if_neg hq, cell_updateCell_ne _ _ _ _ hq]

lemma metadataAttach_cell (h : Heap) (sv ov : MetadataView)
    (hne : sv.ref ≠ ov.ref) (hlt : sv.ref < h.cells.length) (q : Nat) :
    (metadataAttach h sv ov).cell q =
      if q = sv.ref then
        attachStores (h.cell sv.ref) (h.cell ov.ref) sv.curNs ov.curNs
          (subnamespacesOf (h.cell ov.ref) ov.curNs)
      else h.cell q := by
  unfold metadataAttach
  exact attach_fold_cell sv ov hne (h.cell ov.ref)
    (subnamespacesOf (h.cell ov.ref) ov.curNs) h rfl hlt q

lemma attachStores_get_untouched (oc : Stores) (selfNs otherNs : NS) :
    ∀ (subs : List NS) (base : Stores) (q : NS),
    (∀ p ∈ subs, q ≠ selfNs.append p) →
    storesGetNs (attachStores base oc selfNs otherNs subs) q = storesGetNs base q := by
  intro subs
  induction subs with
  | nil => intro base q _; rfl
  | cons p ps ih =>
    intro base q hq
    rw [show attachStores base oc selfNs otherNs (p :: ps) =
        attachStores (dictInsert base (selfNs.append p)
          (dictUpdate (storesGetNs base (selfNs.append p))
            (storesGetNs oc (otherNs.append p)))) oc selfNs otherNs ps from rfl]
    rw [ih _ q (fun p' hp' => hq p' (List.mem_cons_of_mem _ hp'))]
    exact storesGetNs_dictInsert_ne _ _ _ _
      (fun hh => hq p (List.mem_cons_self _ _) hh.symm)

lemma attachStores_get_attached (oc : Stores) (selfNs otherNs : NS) :
    ∀ (subs : List NS) (base : Stores) (p : NS), subs.Nodup → p ∈ subs →
    storesGetNs (attachStores base oc selfNs otherNs subs) (selfNs.append p) =
      dictUpdate (storesGetNs base (selfNs.append p))
        (storesGetNs oc (otherNs.append p)) := by
  intro subs
  induction subs with
  | nil => intro base p _ hp; simp at hp
  | cons p0 ps ih =>
    intro base p hnd hp
    rw [List.nodup_cons] at hnd
    obtain ⟨hp0, hps⟩ := hnd
    rcases List.mem_cons.mp hp with rfl | hmem
    · rw [show attachStores base oc selfNs otherNs (p :: ps) =
          attachStores (dictInsert base (selfNs.append p)
            (dictUpdate (storesGetNs base (selfNs.append p))
              (storesGetNs oc (otherNs.append p)))) oc selfNs otherNs ps from rfl]
      rw [attachStores_get_untouched oc selfNs otherNs ps _ (selfNs.append p)
        (fun p' hp' hh => hp0 ((NS.append_inj selfNs hh) ▸ hp'))]
      exact storesGetNs_dictInsert_self _ _ _
    · have hne0 : p ≠ p0 := fun hh => hp0 (hh ▸ hmem)
      rw [show attachStores base oc selfNs otherNs (p0 :: ps) =
          attachStores (dictInsert base (selfNs.append p0)
            (dictUpdate (storesGetNs base (selfNs.append p0))
              (storesGetNs oc (otherNs.append p0)))) oc selfNs otherNs ps from rfl]
      rw [ih _ p hps hmem]
      rw [storesGetNs_dictInsert_ne _ _ _ _
        (fun hh => hne0 ((NS.append_inj selfNs hh).symm))]

/-- C2: after `m.attach(other)` over distinct backing structures with
well-formed dicts: a relative path is a subnamespace of `other` exactly when
other's dict at that path is non-empty; at every such path every key present
in other's dict is read back, with other's value, through `m`'s backing at
`m.namespace + path`, while keys absent from other's dict there keep `m`'s
previous value; `m`'s namespaces outside the attached subtree and all other
backing cells are unchanged. -/
theorem metadata_attach_semantics
    (h : Heap) (m other : MetadataView)
    (hne : m.ref ≠ other.ref) (hlt : m.ref < h.cells.length)
    (hwfk : ((h.cell other.ref).map Prod.fst).Nodup)
    (hwfo : ∀ e ∈ h.cell other.ref, (e.2.map Prod.fst).Nodup) :
    (∀ p, p ∈ subnamespacesOf (h.cell other.ref) other.curNs ↔
       storesGetNs (h.cell other.ref) (other.curNs.append p) ≠ []) ∧
    (∀ p, p ∈ subnamespacesOf (h.cell other.ref) other.curNs →
       (∀ k v,
          dictGet (storesGetNs (h.cell other.ref) (other.curNs.append p)) k = some v →
          dictGet (storesGetNs ((metadataAttach h m other).cell m.ref)
            (m.curNs.append p)) k = some v) ∧
       (∀ k,
          dictGet (storesGetNs (h.cell other.ref) (other.curNs.append p)) k = none →
          dictGet (storesGetNs ((metadataAttach h m other).cell m.ref)
            (m.curNs.append p)) k =
          dictGet (storesGetNs (h.cell m.ref) (m.curNs.append p)) k)) ∧
    (∀ q, (∀ p ∈ subnamespacesOf (h.cell other.ref) other.curNs, q ≠ m.curNs.append p) →
       storesGetNs ((metadataAttach h m other).cell m.ref) q =
         storesGetNs (h.cell m.ref) q) ∧
    (∀ r, r ≠ m.ref → (metadataAttach h m other).cell r = h.cell r) := by
  have hcell : (metadataAttach h m other).cell m.ref =
      attachStores (h.cell m.ref) (h.cell other.ref) m.curNs other.curNs
        (subnamespacesOf (h.cell other.ref) other.curNs) := by
    rw [metadataAttach_cell h m other hne hlt m.ref, if_pos rfl]
  refine ⟨?_, ?_, ?_, ?_⟩
  · intro p
    rw [mem_subnamespacesOf]
    constructor
    · rintro ⟨d, hmem, hd⟩
      rw [show storesGetNs (h.cell other.ref) (other.curNs.append p) = d from by
        unfold storesGetNs; rw [mem_dictGet _ hwfk _ _ hmem]; rfl]
      exact hd
    · intro hnil
      rcases hg : dictGet (h.cell other.ref) (other.curNs.append p) with _ | d
      · exfalso
        apply hnil
        unfold storesGetNs
        rw [hg]
        rfl
      · refine ⟨d, dictGet_mem _ _ _ hg, ?_⟩
        intro hdnil
        apply hnil
        unfold storesGetNs
        rw [hg, hdnil]
        rfl
  · intro p hp
    have hsub := attachStores_get_attached (h.cell other.ref) m.curNs other.curNs
      (subnamespacesOf (h.cell other.ref) other.curNs) (h.cell m.ref) p
      (subnamespacesOf_nodup _ _ hwfk) hp
    have hnodupd :
        ((storesGetNs (h.cell other.ref) (other.curNs.append p)).map Prod.fst).Nodup := by
      unfold storesGetNs
      rcases hg : dictGet (h.cell other.ref) (other.curNs.append p) with _ | d
      · simp
      · exact hwfo _ (dictGet_mem _ _ _ hg)
    constructor
    · intro k v hk
      rw [hcell, hsub, dictGet_dictUpdate _ hnodupd, hk]
    · intro k hk
      rw [hcell, hsub, dictGet_dictUpdate _ hnodupd, hk]
  · intro q hq
    rw [hcell]
    exact attachStores_get_untouched _ _ _ _ _ q hq
  · intro r hr
    rw [metadataAttach_cell h m other hne hlt r, if_neg hr]

/-- Concrete two-cell heap for the attach witness: `m`'s backing already has
keys at `w:y:z`; `other`'s backing has `{'foo': 'bar'}` at `x:y:z`. -/
def attachDemoHeap : Heap :=
  Heap.mk
    [[(NS.mk [['w'], ['y'], ['z']],
       [("keep", MValue.vstr "old"), ("foo", MValue.vstr "stale")])],
     [(NS.mk [['x'], ['y'], ['z']], [("foo", MValue.vstr "bar")])]]

/-- Witness for C2, mirroring the spec's example: after
`m.ns('w').attach(other.ns('x'))`, `m.abs_ns('w:y:z')['foo'] == 'bar'` while
the pre-existing key `keep` at `w:y:z` is unchanged. -/
theorem metadata_attach_semantics_witness :
    dictGet (storesGetNs ((metadataAttach attachDemoHeap ⟨0, NS.mk [['w']]⟩
        ⟨1, NS.mk [['x']]⟩).cell 0) (NS.mk [['w'], ['y'], ['z']])) "foo" =
      some (MValue.vstr "bar") ∧
    dictGet (storesGetNs ((metadataAttach attachDemoHeap ⟨0, NS.mk [['w']]⟩
        ⟨1, NS.mk [['x']]⟩).cell 0) (NS.mk [['w'], ['y'], ['z']])) "keep" =
      some (MValue.vstr "old") := by
  have H := metadata_attach_semantics attachDemoHeap ⟨0, NS.mk [['w']]⟩ ⟨1, NS.mk [['x']]⟩
    (by decide) (by decide) (by decide) (by decide)
  constructor
  · exact (H.2.1 (NS.mk [['y'], ['z']]) (by decide)).1 "foo" (MValue.vstr "bar") (by decide)
  · exact ((H.2.1 (NS.mk [['y'], ['z']]) (by decide)).2 "keep" (by decide)).trans (by decide)

/-! ### Trial-parameter resolution (study_config.py: `StudyConfig`) -/

/-- Raw and external parameter values (`ParameterValue.value` and its cast
image), modelled as strings; equality is all the resolver needs. -/
abbrev Value := String

/-- External type designators (`ExternalType`), by name. -/
abbrev ExtType := String

/-- A `ParameterConfig` tree node (external collaborator, consumed
read-only): name, optional external type, the matching-parent-values set
gating conditional activation, and child configs. -/
inductive ParameterConfig where
  | mk (name : String) (externalType : Option ExtType)
      (matchingParentValues : List Value)
      (childParameterConfigs : List ParameterConfig)

def ParameterConfig.name : ParameterConfig → String
  | .mk n _ _ _ => n

def ParameterConfig.externalType : ParameterConfig → Option ExtType
  | .mk _ e _ _ => e

def ParameterConfig.matchingParentValues : ParameterConfig → List Value
  | .mk _ _ m _ => m

def ParameterConfig.childParameterConfigs : ParameterConfig → List ParameterConfig
  | .mk _ _ _ c => c

mutual

def pcSize : ParameterConfig → Nat
  | .mk _ _ _ children => 1 + pcsSize children

def pcsSize : List ParameterConfig → Nat
  | [] => 0
  | c :: cs => pcSize c + pcsSize cs

end

def queueSize : List (Option String × ParameterConfig) → Nat
  | [] => 0
  | e :: rest => pcSize e.2 + queueSize rest

lemma queueSize_append (a b : List (Option String × ParameterConfig)) :
    queueSize (a ++ b) = queueSize a + queueSize b := by
  induction a with
  | nil => simp [queueSize]
  | cons e t ih => simp [queueSize, ih]; omega

lemma queueSize_map_children (n : String) (children : List ParameterConfig) :
    queueSize (children.map (fun c => ((some n : Option String), c))) =
      pcsSize children := by
  induction children with
  | nil => rfl
  | cons c cs ih => simp [queueSize, pcsSize, ih]

lemma pcSize_eq (pc : ParameterConfig) :
    pcSize pc = 1 + pcsSize pc.childParameterConfigs := by
  cases pc
  rfl

/-- The external value of a resolved parameter (study_config.py lines
312-315): the raw value if no external type is declared, else its cast. -/
def externalOf (cast : Value → ExtType → Value) (pc : ParameterConfig)
    (rawv : Value) : Value :=
  match pc.externalType with
  | none => rawv
  | some et => cast rawv et

/-- The BFS loop of `StudyConfig._trial_to_external_values` (study_config.py
lines 296-317): pop the head config, enqueue its children tagged with this
config's name, skip it if absent from the remaining trial parameters, skip a
child whose parent is unresolved or whose parent's raw value is not among
its matching parent values, otherwise record raw and external values and
drain the trial entry.  The loop stops when the queue or the remaining
trial mapping is exhausted.  `cast` (`ParameterValue.cast`, from the shared
trial module outside src/) is a parameter. -/
def resolveLoop (cast : Value → ExtType → Value) :
    List (Option String × ParameterConfig) → List (String × Value) →
    List (String × Value) → List (String × Value) → List (String × Value)
  | [], _, _, externalValues => externalValues
  | (parentName, pc) :: rest, remaining, parameterValues, externalValues =>
    if remaining.isEmpty then externalValues
    else
      let queue := rest ++ pc.childParameterConfigs.map (fun c => (some pc.name, c))
      match dictGet remaining pc.name with
      | none => resolveLoop cast queue remaining parameterValues externalValues
      | some rawv =>
        match parentName with
        | some pn =>
          match dictGet parameterValues pn with
          | none => resolveLoop cast queue remaining parameterValues externalValues
          | some parentValue =>
            if parentValue ∈ pc.matchingParentValues then
              resolveLoop cast queue (dictRemove remaining pc.name)
                (dictInsert parameterValues pc.name rawv)
                (dictInsert externalValues pc.name (externalOf cast pc rawv))
            else resolveLoop cast queue remaining parameterValues externalValues
        | none =>
          resolveLoop cast queue (dictRemove remaining pc.name)
            (dictInsert parameterValues pc.name rawv)
            (dictInsert externalValues pc.name (externalOf cast pc rawv))
termination_by queue => queueSize queue
decreasing_by
  all_goals
    simp [queueSize, queueSize_append, queueSize_map_children, pcSize_eq]
    omega

/-- `StudyConfig._trial_to_external_values` (study_config.py lines 284-318):
seed the queue with the root configs (no parent), the remaining set with a
copy of the trial's parameters, and run the BFS. -/
def trialToExternalValues (cast : Value → ExtType → Value)
    (spaceParams : List ParameterConfig) (trialParams : List (String × Value)) :
    List (String × Value) :=
  resolveLoop cast (spaceParams.map (fun p => ((none : Option String), p)))
    trialParams [] []

lemma dictRemove_keys_sub {κ ν : Type} [DecidableEq κ]
    (l : List (κ × ν)) (k q : κ) (h : q ∈ (dictRemove l k).map Prod.fst) :
    q ∈ l.map Prod.fst := by
  induction l with
  | nil => simp [dictRemove] at h
  | cons e t ih =>
    obtain ⟨k', v'⟩ := e
    by_cases hk : k' = k
    · rw [show dictRemove ((k', v') :: t) k = t from by simp [dictRemove, hk]] at h
      rw [List.map_cons, List.mem_cons]
      exact Or.inr h
    · rw [show dictRemove ((k', v') :: t) k = (k', v') :: dictRemove t k from by
        simp [dictRemove, hk], List.map_cons, List.mem_cons] at h
      rw [List.map_cons, List.mem_cons]
      rcases h with h | h
      · exact Or.inl h
      · exact Or.inr (ih h)

lemma dictRemove_keys_nodup {κ ν : Type} [DecidableEq κ]
    (l : List (κ × ν)) (k : κ) (h : (l.map Prod.fst).Nodup) :
    ((dictRemove l k).map Prod.fst).Nodup := by
  induction l with
  | nil => simp [dictRemove]
  | cons e t ih =>
    obtain ⟨k', v'⟩ := e
    rw [List.map_cons, List.nodup_cons] at h
    obtain ⟨hk', ht⟩ := h
    by_cases hk : k' = k
    · rw [show dictRemove ((k', v') :: t) k = t from by simp [dictRemove, hk]]
      exact ht
    · rw [show dictRemove ((k', v') :: t) k = (k', v') :: dictRemove t k from by
        simp [dictRemove, hk], List.map_cons, List.nodup_cons]
      exact ⟨fun hmem => hk' (dictRemove_keys_sub t k k' hmem), ih ht⟩

lemma dictRemove_self_not_mem {κ ν : Type} [DecidableEq κ]
    (l : List (κ × ν)) (k : κ) (h : (l.map Prod.fst).Nodup) :
    k ∉ (dictRemove l k).map Prod.fst := by
  induction l with
  | nil => simp [dictRemove]
  | cons e t ih =>
    obtain ⟨k', v'⟩ := e
    rw [List.map_cons, List.nodup_cons] at h
    obtain ⟨hk', ht⟩ := h
    by_cases hk : k' = k
    · rw [show dictRemove ((k', v') :: t) k = t from by simp [dictRemove, hk]]
      rw [← hk]
      exact hk'
    · rw [show dictRemove ((k', v') :: t) k = (k', v') :: dictRemove t k from by
        simp [dictRemove, hk], List.map_cons]
      intro hmem
      rcases List.mem_cons.mp hmem with hmem | hmem
      · exact hk hmem.symm
      · exact ih ht hmem

lemma resolve_invariant_step (remaining ev : List (String × Value))
    (name : String) (extv : Value)
    (hrem : (remaining.map Prod.fst).Nodup) (hev : (ev.map Prod.fst).Nodup)
    (hdisj : ∀ n ∈ ev.map Prod.fst, n ∉ remaining.map Prod.fst) :
    ((dictRemove remaining name).map Prod.fst).Nodup ∧
    ((dictInsert ev name extv).map Prod.fst).Nodup ∧
    (∀ n ∈ (dictInsert ev name extv).map Prod.fst,
        n ∉ (dictRemove remaining name).map Prod.fst) := by
  refine ⟨dictRemove_keys_nodup _ _ hrem, dictInsert_keys_nodup _ _ _ hev, ?_⟩
  intro n hn hmem
  rcases dictInsert_keys_sub ev name extv n hn with hh | hh
  · exact hdisj n hh (dictRemove_keys_sub remaining name n hmem)
  · subst hh
    exact dictRemove_self_not_mem remaining n hrem hmem

/-- Invariant of the BFS loop: the names of the produced external-value dict
stay duplicate-free and are drawn from the initial external values and the
remaining trial names. -/
lemma resolveLoop_names (cast : Value → ExtType → Value)
    (queue : List (Option String × ParameterConfig))
    (remaining pv ev : List (String × Value)) :
    (remaining.map Prod.fst).Nodup → (ev.map Prod.fst).Nodup →
    (∀ n ∈ ev.map Prod.fst, n ∉ remaining.map Prod.fst) →
    ((resolveLoop cast queue remaining pv ev).map Prod.fst).Nodup ∧
    (∀ n ∈ (resolveLoop cast queue remaining pv ev).map Prod.fst,
       n ∈ ev.map Prod.fst ∨ n ∈ remaining.map Prod.fst) := by
  induction queue, remaining, pv, ev using resolveLoop.induct cast with
  | case1 remaining pv ev =>
    intro _ hev _
    rw [show resolveLoop cast [] remaining pv ev = ev from by rw [resolveLoop]]
    exact ⟨hev, fun n hn => Or.inl hn⟩
  | case2 parentName pc rest remaining pv ev hemp =>
    intro _ hev _
    rw [show resolveLoop cast ((parentName, pc) :: rest) remaining pv ev = ev from by
      rw [resolveLoop]; simp [hemp]]
    exact ⟨hev, fun n hn => Or.inl hn⟩
  | case3 parentName pc rest remaining pv ev hemp queue hnone ih =>
    intro hrem hev hdisj
    rw [show resolveLoop cast ((parentName, pc) :: rest) remaining pv ev =
        resolveLoop cast queue remaining pv ev from by
      rw [resolveLoop]; simp [hemp, hnone]]
    exact ih hrem hev hdisj
  | case4 pc rest remaining pv ev hemp queue rawv hsome pn hpn ih =>
    intro hrem hev hdisj
    rw [show resolveLoop cast ((some pn, pc) :: rest) remaining pv ev =
        resolveLoop cast queue remaining pv ev from by
      rw [resolveLoop]; simp [hemp, hsome, hpn]]
    exact ih hrem hev hdisj
  | case5 pc rest remaining pv ev hemp queue rawv hsome pn parentValue hpv hmatch ih =>
    intro hrem hev hdisj
    rw [show resolveLoop cast ((some pn, pc) :: rest) remaining pv ev =
        resolveLoop cast queue (dictRemove remaining pc.name)
          (dictInsert pv pc.name rawv)
          (dictInsert ev pc.name (externalOf cast pc rawv)) from by
      rw [resolveLoop]; simp [hemp, hsome, hpv, hmatch]]
    have hname : pc.name ∈ remaining.map Prod.fst :=
      dictGet_mem_keys remaining pc.name rawv hsome
    have hstep := resolve_invariant_step remaining ev pc.name
      (externalOf cast pc rawv) hrem hev hdisj
    obtain ⟨hrem', hev', hdisj'⟩ := hstep
    obtain ⟨hn, hs⟩ := ih hrem' hev' hdisj'
    refine ⟨hn, fun n hmem => ?_⟩
    rcases hs n hmem with hh | hh
    · rcases dictInsert_keys_sub ev pc.name _ n hh with hh' | hh'
      · exact Or.inl hh'
      · exact Or.inr (hh' ▸ hname)
    · exact Or.inr (dictRemove_keys_sub remaining pc.name n hh)
  | case6 pc rest remaining pv ev hemp queue rawv hsome pn parentValue hpv hmatch ih =>
    intro hrem hev hdisj
    rw [show resolveLoop cast ((some pn, pc) :: rest) remaining pv ev =
        resolveLoop cast queue remaining pv ev from by
      rw [resolveLoop]; simp [hemp, hsome, hpv, hmatch]]
    exact ih hrem hev hdisj
  | case7 pc rest remaining pv ev hemp queue rawv hsome ih =>
    intro hrem hev hdisj
    rw [show resolveLoop cast ((none, pc) :: rest) remaining pv ev =
        resolveLoop cast queue (dictRemove remaining pc.name)
          (dictInsert pv pc.name rawv)
          (dictInsert ev pc.name (externalOf cast pc rawv)) from by
      rw [resolveLoop]; simp [hemp, hsome]]
    have hname : pc.name ∈ remaining.map Prod.fst :=
      dictGet_mem_keys remaining pc.name rawv hsome
    have hstep := resolve_invariant_step remaining ev pc.name
      (externalOf cast pc rawv) hrem hev hdisj
    obtain ⟨hrem', hev', hdisj'⟩ := hstep
    obtain ⟨hn, hs⟩ := ih hrem' hev' hdisj'
    refine ⟨hn, fun n hmem => ?_⟩
    rcases hs n hmem with hh | hh
    · rcases dictInsert_keys_sub ev pc.name _ n hh with hh' | hh'
      · exact Or.inl hh'
      · exact Or.inr (hh' ▸ hname)
    · exact Or.inr (dictRemove_keys_sub remaining pc.name n hh)

/-- Split a character list at its last opening bracket: `some (before, after)`
when a `[` occurs, else `none`. -/
def splitAtLastOpen : List Char → Option (List Char × List Char)
  | [] => none
  | c :: rest =>
    match splitAtLastOpen rest with
    | some pr => some (c :: pr.1, pr.2)
    | none => if c = '[' then some ([], rest) else none

/-- Modelled from the spec:
`SearchSpaceSelector.parse_multi_dimensional_parameter_name` lives in
`base_study_config`, which is not under src/.  Per the spec's reserved naming
convention for multi-dimensional parameters, a name of the form
`base[index]` with a decimal index yields `(base, index)`; any other name
yields `none`. -/
def parseMDName (s : String) : Option (String × Nat) :=
  let cs := s.toList
  if cs.getLast? = some ']' then
    match splitAtLastOpen cs.dropLast with
    | some pr =>
      if pr.2 = [] then none
      else (parseDigitsAux pr.2 0).map (fun n => (String.mk pr.1, n))
    | none => none
  else none

/-- A final trial value: a scalar, or the recombined sequence of a
multi-dimensional parameter (`ParameterValueSequence`). -/
inductive PVSeq where
  | single (v : Value)
  | seq (vs : List Value)
deriving DecidableEq, Repr

/-- `multi_dim_params[base_name].append((index, value))` on a
defaultdict(list) (study_config.py line 372). -/
def mdAppend (acc : List (String × List (Nat × Value))) (base : String)
    (iv : Nat × Value) : List (String × List (Nat × Value)) :=
  match dictGet acc base with
  | none => acc ++ [(base, [iv])]
  | some l => dictInsert acc base (l ++ [iv])

/-- Stable insertion, placing `x` after every entry with index `≤ x.1`. -/
def insertAfterLe (x : Nat × Value) : List (Nat × Value) → List (Nat × Value)
  | [] => [x]
  | y :: ys => if y.1 ≤ x.1 then y :: insertAfterLe x ys else x :: y :: ys

/-- `multi_dim_params[name].sort(key=lambda x: x[0])` (study_config.py line
374): a stable ascending sort by index. -/
def sortPairs (l : List (Nat × Value)) : List (Nat × Value) :=
  l.foldl (fun acc x => insertAfterLe x acc) []

/-- One step of the first recombination loop (study_config.py lines 365-372):
an unindexed name goes straight to the final dict, an indexed one is grouped
under its base name. -/
def recombineStep
    (acc : List (String × PVSeq) × List (String × List (Nat × Value)))
    (e : String × Value) :
    List (String × PVSeq) × List (String × List (Nat × Value)) :=
  match parseMDName e.1 with
  | none => (dictInsert acc.1 e.1 (.single e.2), acc.2)
  | some bi => (acc.1, mdAppend acc.2 bi.1 (bi.2, e.2))

/-- The recombination phase of `StudyConfig._pytrial_parameters`
(study_config.py lines 361-377): group indexed names, then write each base
name's index-sorted value sequence into the final dict. -/
def recombine (ext : List (String × Value)) : List (String × PVSeq) :=
  let pr := ext.foldl recombineStep ([], [])
  pr.2.foldl
    (fun fs e => dictInsert fs e.1 (.seq ((sortPairs e.2).map Prod.snd))) pr.1

/-- The error message of `StudyConfig._pytrial_parameters` (study_config.py
lines 357-359), naming the trial. -/
def invalidTrialError (trialRepr : String) : String :=
  "Invalid trial for this search space: failed to convert all trial parameters: "
    ++ trialRepr

/-- `StudyConfig._pytrial_parameters` (study_config.py lines 339-377):
resolve external values, fail if their count differs from the raw trial
entry count, otherwise recombine multi-dimensional parameters. -/
def pytrialParameters (cast : Value → ExtType → Value)
    (spaceParams : List ParameterConfig) (trialRepr : String)
    (trialParams : List (String × Value)) :
    Except String (List (String × PVSeq)) :=
  let ext := trialToExternalValues cast spaceParams trialParams
  if ext.length ≠ trialParams.length then .error (invalidTrialError trialRepr)
  else .ok (recombine ext)

/-- C3: parameter resolution either returns a mapping or raises the
invalid-trial error naming the trial with no partial mapping; it raises
exactly when the count of resolved external values differs from the count of
raw trial entries; and on success every raw trial name is accounted for
among the resolved external values. -/
theorem pytrial_parameters_accounting (cast : Value → ExtType → Value)
    (sp : List ParameterConfig) (trialRepr : String)
    (tp : List (String × Value)) (hnd : (tp.map Prod.fst).Nodup) :
    ((∃ m, pytrialParameters cast sp trialRepr tp = .ok m) ∨
       pytrialParameters cast sp trialRepr tp = .error (invalidTrialError trialRepr)) ∧
    ((∃ e, pytrialParameters cast sp trialRepr tp = .error e) ↔
       (trialToExternalValues cast sp tp).length ≠ tp.length) ∧
    (∀ m, pytrialParameters cast sp trialRepr tp = .ok m →
       ∀ n ∈ tp.map Prod.fst, n ∈ (trialToExternalValues cast sp tp).map Prod.fst) := by
  by_cases hlen : (trialToExternalValues cast sp tp).length ≠ tp.length
  · have he : pytrialParameters cast sp trialRepr tp = .error (invalidTrialError trialRepr) := by
      unfold pytrialParameters
      rw [if_pos hlen]
    refine ⟨Or.inr he, ⟨fun _ => hlen, fun _ => ⟨_, he⟩⟩, ?_⟩
    intro m hm
    rw [he] at hm
    exact absurd hm (by simp)
  · have ho : pytrialParameters cast sp trialRepr tp =
        .ok (recombine (trialToExternalValues cast sp tp)) := by
      unfold pytrialParameters
      rw [if_neg hlen]
    refine ⟨Or.inl ⟨_, ho⟩, ⟨?_, fun hh => absurd hh hlen⟩, ?_⟩
    · rintro ⟨e, he⟩
      rw [ho] at he
      exact absurd he (by simp)
    · intro m _ n hn
      have hnames := resolveLoop_names cast
        (sp.map (fun p => ((none : Option String), p))) tp [] []
        hnd (by simp) (by simp)
      have hsub : (trialToExternalValues cast sp tp).map Prod.fst ⊆ tp.map Prod.fst := by
        intro x hx
        rcases hnames.2 x hx with h | h
        · simp at h
        · exact h
      obtain ⟨l', hperm, hsl⟩ := List.Nodup.subperm hnames.1 hsub
      have hlen2 : (trialToExternalValues cast sp tp).length = tp.length :=
        not_ne_iff.mp hlen
      have hlen' : l'.length = (tp.map Prod.fst).length := by
        rw [hperm.length_eq, List.length_map, List.length_map]
        exact hlen2
      have hl' : l' = tp.map Prod.fst := hsl.eq_of_length hlen'
      rw [← hl'] at hn
      exact hperm.mem_iff.mp hn

/-- Witness for C3: a trial containing a name absent from the search space
fails with the invalid-trial error naming the trial; a fully matching trial
resolves. -/
theorem pytrial_parameters_accounting_witness :
    pytrialParameters (fun v _ => v) [ParameterConfig.mk "a" none [] []] "trial-7"
      [("a", "1"), ("zzz", "2")] = .error (invalidTrialError "trial-7") ∧
    (∃ m, pytrialParameters (fun v _ => v) [ParameterConfig.mk "a" none [] []] "t2"
      [("a", "1")] = .ok m) := by
  have hext1 : trialToExternalValues (fun v _ => v) [ParameterConfig.mk "a" none [] []]
      [("a", "1"), ("zzz", "2")] = [("a", "1")] := by
    simp [trialToExternalValues, resolveLoop, dictGet, dictRemove, dictInsert,
      externalOf, ParameterConfig.name, ParameterConfig.childParameterConfigs,
      ParameterConfig.externalType]
  have hext2 : trialToExternalValues (fun v _ => v) [ParameterConfig.mk "a" none [] []]
      [("a", "1")] = [("a", "1")] := by
    simp [trialToExternalValues, resolveLoop, dictGet, dictRemove, dictInsert,
      externalOf, ParameterConfig.name, ParameterConfig.childParameterConfigs,
      ParameterConfig.externalType]
  have H1 := pytrial_parameters_accounting (fun v _ => v)
    [ParameterConfig.mk "a" none [] []] "trial-7" [("a", "1"), ("zzz", "2")] (by decide)
  have H2 := pytrial_parameters_accounting (fun v _ => v)
    [ParameterConfig.mk "a" none [] []] "t2" [("a", "1")] (by decide)
  constructor
  · rcases H1.1 with ⟨m, hm⟩ | he
    · exfalso
      obtain ⟨e', he'⟩ := H1.2.1.mpr (by rw [hext1]; decide)
      rw [hm] at he'
      exact absurd he' (by simp)
    · exact he
  · rcases H2.1 with hok | he
    · exact hok
    · exfalso
      exact H2.2.1.mp ⟨_, he⟩ (by rw [hext2])

/-- C5: a config with a declared parent is recorded only when its own name is
in the remaining trial mapping, its parent's name is already in the resolved
raw-value map, and the parent's resolved raw value is among its matching
parent values; in every other case the config is skipped with only its
children enqueued.  In particular (final conjunct), a child present in the
trial whose parent's value does not match stays unresolved and the whole
resolution fails with the resolution-mismatch error. -/
theorem resolve_conditional_gating (cast : Value → ExtType → Value)
    (pn : String) (pc : ParameterConfig)
    (rest : List (Option String × ParameterConfig))
    (remaining pv ev : List (String × Value)) (hne : remaining ≠ []) :
    (dictGet remaining pc.name = none →
       resolveLoop cast ((some pn, pc) :: rest) remaining pv ev =
         resolveLoop cast
           (rest ++ pc.childParameterConfigs.map (fun c => (some pc.name, c)))
           remaining pv ev) ∧
    (∀ rawv, dictGet remaining pc.name = some rawv → dictGet pv pn = none →
       resolveLoop cast ((some pn, pc) :: rest) remaining pv ev =
         resolveLoop cast
           (rest ++ pc.childParameterConfigs.map (fun c => (some pc.name, c)))
           remaining pv ev) ∧
    (∀ rawv parentValue, dictGet remaining pc.name = some rawv →
       dictGet pv pn = some parentValue →
       parentValue ∉ pc.matchingParentValues →
       resolveLoop cast ((some pn, pc) :: rest) remaining pv ev =
         resolveLoop cast
           (rest ++ pc.childParameterConfigs.map (fun c => (some pc.name, c)))
           remaining pv ev) ∧
    (∀ rawv parentValue, dictGet remaining pc.name = some rawv →
       dictGet pv pn = some parentValue →
       parentValue ∈ pc.matchingParentValues →
       resolveLoop cast ((some pn, pc) :: rest) remaining pv ev =
         resolveLoop cast
           (rest ++ pc.childParameterConfigs.map (fun c => (some pc.name, c)))
           (dictRemove remaining pc.name) (dictInsert pv pc.name rawv)
           (dictInsert ev pc.name (externalOf cast pc rawv))) ∧
    (pytrialParameters (fun v _ => v)
       [ParameterConfig.mk "a" none [] [ParameterConfig.mk "c" none ["low"] []]]
       "trial-3" [("a", "high"), ("c", "1")] = .error (invalidTrialError "trial-3")) := by
  have hemp : ¬remaining.isEmpty = true := by
    cases remaining with
    | nil => exact absurd rfl hne
    | cons e t => simp
  refine ⟨?_, ?_, ?_, ?_, ?_⟩
  · intro hnone
    rw [resolveLoop]
    simp [hemp, hnone]
  · intro rawv hsome hpn
    rw [resolveLoop]
    simp [hemp, hsome, hpn]
  · intro rawv parentValue hsome hpv hmatch
    rw [resolveLoop]
    simp [hemp, hsome, hpv, hmatch]
  · intro rawv parentValue hsome hpv hmatch
    rw [resolveLoop]
    simp [hemp, hsome, hpv, hmatch]
  · have hext : trialToExternalValues (fun v _ => v)
        [ParameterConfig.mk "a" none [] [ParameterConfig.mk "c" none ["low"] []]]
        [("a", "high"), ("c", "1")] = [("a", "high")] := by
      simp [trialToExternalValues, resolveLoop, dictGet, dictRemove, dictInsert,
        externalOf, ParameterConfig.name, ParameterConfig.childParameterConfigs,
        ParameterConfig.externalType, ParameterConfig.matchingParentValues]
    unfold pytrialParameters
    rw [if_pos (by rw [hext]; decide)]

/-- Witness for C5 at concrete inputs: the parent-mismatch skip step and the
record step of the loop. -/
theorem resolve_conditional_gating_witness :
    (resolveLoop (fun v _ => v)
       [((some "a" : Option String), ParameterConfig.mk "c" none ["low"] [])]
       [("c", "1")] [("a", "high")] [("a", "high")] =
     resolveLoop (fun v _ => v) [] [("c", "1")] [("a", "high")] [("a", "high")]) ∧
    (resolveLoop (fun v _ => v)
       [((some "a" : Option String), ParameterConfig.mk "c" none ["low"] [])]
       [("c", "1")] [("a", "low")] [("a", "low")] =
     resolveLoop (fun v _ => v) [] [] [("a", "low"), ("c", "1")]
       [("a", "low"), ("c", "1")]) := by
  constructor
  · exact (resolve_conditional_gating (fun v _ => v) "a"
      (ParameterConfig.mk "c" none ["low"] []) [] [("c", "1")] [("a", "high")]
      [("a", "high")] (by decide)).2.2.1 "1" "high" (by decide) (by decide) (by decide)
  · exact ((resolve_conditional_gating (fun v _ => v) "a"
      (ParameterConfig.mk "c" none ["low"] []) [] [("c", "1")] [("a", "low")]
      [("a", "low")] (by decide)).2.2.2.1 "1" "low" (by decide) (by decide)
      (by decide)).trans (by simp [dictRemove, dictInsert, externalOf,
        ParameterConfig.name, ParameterConfig.externalType,
        ParameterConfig.childParameterConfigs])

/-! ### Multi-dimensional recombination lemmas (C4) -/

/-- The indexed entries of the resolved mapping whose base name is `b`, in
resolution order. -/
def groupOf (ext : List (String × Value)) (b : String) : List (Nat × Value) :=
  ext.filterMap (fun e =>
    match parseMDName e.1 with
    | some bi => if bi.1 = b then some (bi.2, e.2) else none
    | none => none)

/-- The entries of the resolved mapping whose name has no index. -/
def nonIndexed (ext : List (String × Value)) : List (String × Value) :=
  ext.filter (fun e => (parseMDName e.1).isNone)

/-- Appending a group to an optional existing group, as the defaultdict
does. -/
def optCat (o : Option (List (Nat × Value))) (g : List (Nat × Value)) :
    Option (List (Nat × Value)) :=
  match o, g with
  | none, [] => none
  | none, g => some g
  | some g0, g => some (g0 ++ g)

lemma optCat_nil (o : Option (List (Nat × Value))) : optCat o [] = o := by
  cases o <;> simp [optCat]

lemma dictGet_eq_none_of_not_mem {κ ν : Type} [DecidableEq κ]
    (l : List (κ × ν)) (q : κ) (h : q ∉ l.map Prod.fst) : dictGet l q = none := by
  cases hg : dictGet l q with
  | none => rfl
  | some v => exact absurd (dictGet_mem_keys l q v hg) h

lemma dictGet_append {κ ν : Type} [DecidableEq κ]
    (l l' : List (κ × ν)) (q : κ) :
    dictGet (l ++ l') q =
      match dictGet l q with
      | some v => some v
      | none => dictGet l' q := by
  induction l with
  | nil => rfl
  | cons e t ih =>
    obtain ⟨k', v'⟩ := e
    by_cases hq : k' = q
    · simp [dictGet, hq]
    · simp [dictGet, hq, ih]

lemma dictGet_isSome_of_mem_keys {κ ν : Type} [DecidableEq κ]
    (l : List (κ × ν)) (q : κ) (h : q ∈ l.map Prod.fst) :
    ∃ w, dictGet l q = some w := by
  induction l with
  | nil => simp at h
  | cons e t ih =>
    obtain ⟨k', v'⟩ := e
    by_cases hq : k' = q
    · exact ⟨v', by simp [dictGet, hq]⟩
    · rw [List.map_cons, List.mem_cons] at h
      rcases h with h | h
      · exact absurd h.symm hq
      · obtain ⟨w, hw⟩ := ih h
        exact ⟨w, by simp [dictGet, hq, hw]⟩

lemma mdAppend_get (ms : List (String × List (Nat × Value))) (b : String)
    (iv : Nat × Value) (q : String) :
    dictGet (mdAppend ms b iv) q =
      if b = q then some (((dictGet ms b).getD []) ++ [iv]) else dictGet ms q := by
  unfold mdAppend
  cases hg : dictGet ms b with
  | none =>
    rw [dictGet_append]
    by_cases hq : b = q
    · subst hq
      rw [hg]
      simp [dictGet]
    · rw [if_neg hq]
      cases hg' : dictGet ms q with
      | some v => rfl
      | none => simp [dictGet, hq]
  | some l =>
    rw [dictGet_dictInsert]
    by_cases hq : b = q
    · subst hq
      rw [if_pos rfl, if_pos rfl]
      rfl
    · rw [if_neg hq, if_neg hq]

lemma mdAppend_keys_nodup (ms : List (String × List (Nat × Value))) (b : String)
    (iv : Nat × Value) (h : (ms.map Prod.fst).Nodup) :
    ((mdAppend ms b iv).map Prod.fst).Nodup := by
  unfold mdAppend
  cases hg : dictGet ms b with
  | none =>
    rw [List.map_append]
    simp only [List.map_cons, List.map_nil]
    rw [List.nodup_append]
    refine ⟨h, by simp, ?_⟩
    intro x hx
    simp only [List.mem_singleton]
    intro hxb
    subst hxb
    obtain ⟨w, hw⟩ := dictGet_isSome_of_mem_keys ms x hx
    rw [hg] at hw
    exact Option.noConfusion hw
  | some l => exact dictInsert_keys_nodup ms b _ h

lemma firstFold_ms (l : List (String × Value)) :
    ∀ (fs : List (String × PVSeq)) (ms : List (String × List (Nat × Value))) (q : String),
    dictGet (l.foldl recombineStep (fs, ms)).2 q = optCat (dictGet ms q) (groupOf l q) := by
  induction l with
  | nil =>
    intro fs ms q
    rw [show groupOf [] q = [] from rfl, optCat_nil]
    rfl
  | cons e rest ih =>
    intro fs ms q
    obtain ⟨name, v⟩ := e
    rw [List.foldl_cons]
    cases hparse : parseMDName name with
    | none =>
      rw [show recombineStep (fs, ms) (name, v) =
          (dictInsert fs name (.single v), ms) from by
        unfold recombineStep; rw [hparse]]
      rw [ih _ ms q,
        show groupOf ((name, v) :: rest) q = groupOf rest q from by
          unfold groupOf; rw [List.filterMap_cons]; simp [hparse]]
    | some bi =>
      obtain ⟨b, i⟩ := bi
      rw [show recombineStep (fs, ms) (name, v) = (fs, mdAppend ms b (i, v)) from by
        unfold recombineStep; rw [hparse]]
      rw [ih fs _ q, mdAppend_get]
      have hgrp : groupOf ((name, v) :: rest) q =
          if b = q then (i, v) :: groupOf rest q else groupOf rest q := by
        unfold groupOf
        rw [List.filterMap_cons]
        by_cases hb : b = q
        · simp [hparse, hb]
        · simp [hparse, hb]
      rw [hgrp]
      by_cases hb : b = q
      · subst hb
        rw [if_pos rfl, if_pos rfl]
        cases hg : dictGet ms b with
        | none => simp [optCat]
        | some g0 => simp [optCat]
      · rw [if_neg hb, if_neg hb]

lemma firstFold_ms_nodup (l : List (String × Value)) :
    ∀ (fs : List (String × PVSeq)) (ms : List (String × List (Nat × Value))),
    (ms.map Prod.fst).Nodup → ((l.foldl recombineStep (fs, ms)).2.map Prod.fst).Nodup := by
  induction l with
  | nil => intro fs ms h; exact h
  | cons e rest ih =>
    intro fs ms h
    obtain ⟨name, v⟩ := e
    rw [List.foldl_cons]
    cases hparse : parseMDName name with
    | none =>
      rw [show recombineStep (fs, ms) (name, v) =
          (dictInsert fs name (.single v), ms) from by
        unfold recombineStep; rw [hparse]]
      exact ih _ ms h
    | some bi =>
      rw [show recombineStep (fs, ms) (name, v) = (fs, mdAppend ms bi.1 (bi.2, v)) from by
        unfold recombineStep; rw [hparse]]
      exact ih fs _ (mdAppend_keys_nodup ms bi.1 _ h)

lemma firstFold_fs (l : List (String × Value)) :
    ∀ (fs : List (String × PVSeq)) (ms : List (String × List (Nat × Value))) (q : String),
    (l.map Prod.fst).Nodup →
    dictGet (l.foldl recombineStep (fs, ms)).1 q =
      (match dictGet (nonIndexed l) q with
       | some v => some (PVSeq.single v)
       | none => dictGet fs q) := by
  induction l with
  | nil => intro fs ms q _; rfl
  | cons e rest ih =>
    intro fs ms q hnd
    obtain ⟨name, v⟩ := e
    rw [List.map_cons, List.nodup_cons] at hnd
    obtain ⟨hname, hrest⟩ := hnd
    rw [List.foldl_cons]
    cases hparse : parseMDName name with
    | none =>
      rw [show recombineStep (fs, ms) (name, v) =
          (dictInsert fs name (.single v), ms) from by
        unfold recombineStep; rw [hparse]]
      rw [ih _ ms q hrest]
      have hni : nonIndexed ((name, v) :: rest) = (name, v) :: nonIndexed rest := by
        unfold nonIndexed
        rw [List.filter_cons]
        simp [hparse]
      rw [hni]
      by_cases hq : name = q
      · subst hq
        have hnone : dictGet (nonIndexed rest) name = none :=
          dictGet_eq_none_of_not_mem _ name
            (fun hmem => hname (((List.filter_sublist rest).map Prod.fst).subset hmem))
        rw [hnone, show dictGet ((name, v) :: nonIndexed rest) name = some v from by
          simp [dictGet]]
        rw [dictGet_dictInsert, if_pos rfl]
      · rw [show dictGet ((name, v) :: nonIndexed rest) q = dictGet (nonIndexed rest) q
          from by simp [dictGet, hq]]
        cases dictGet (nonIndexed rest) q with
        | some w => rfl
        | none => rw [dictGet_dictInsert, if_neg hq]
    | some bi =>
      rw [show recombineStep (fs, ms) (name, v) = (fs, mdAppend ms bi.1 (bi.2, v)) from by
        unfold recombineStep; rw [hparse]]
      rw [ih fs _ q hrest]
      have hni : nonIndexed ((name, v) :: rest) = nonIndexed rest := by
        unfold nonIndexed
        rw [List.filter_cons]
        simp [hparse]
      rw [hni]

lemma secondFold_spec (ms : List (String × List (Nat × Value))) :
    ∀ (fs : List (String × PVSeq)) (q : String), (ms.map Prod.fst).Nodup →
    dictGet (ms.foldl
        (fun fs e => dictInsert fs e.1 (.seq ((sortPairs e.2).map Prod.snd))) fs) q =
      (match dictGet ms q with
       | some g => some (PVSeq.seq ((sortPairs g).map Prod.snd))
       | none => dictGet fs q) := by
  induction ms with
  | nil => intro fs q _; rfl
  | cons e rest ih =>
    intro fs q hnd
    obtain ⟨b, g⟩ := e
    rw [List.map_cons, List.nodup_cons] at hnd
    obtain ⟨hb, hrest⟩ := hnd
    rw [List.foldl_cons, ih _ q hrest]
    by_cases hq : b = q
    · subst hq
      rw [dictGet_eq_none_of_not_mem rest b hb,
        show dictGet ((b, g) :: rest) b = some g from by simp [dictGet],
        dictGet_dictInsert, if_pos rfl]
    · rw [show dictGet ((b, g) :: rest) q = dictGet rest q from by simp [dictGet, hq]]
      cases dictGet rest q with
      | some g' => rfl
      | none => rw [dictGet_dictInsert, if_neg hq]

/-- Characterization of the recombined mapping: an indexed base name maps to
its sorted group; an unindexed name maps to its single value unless it also
occurs as a base name (in which case the second loop overwrites it). -/
lemma recombine_get (ext : List (String × Value)) (hnd : (ext.map Prod.fst).Nodup)
    (q : String) :
    dictGet (recombine ext) q =
      (match groupOf ext q with
       | [] =>
         (match dictGet (nonIndexed ext) q with
          | some v => some (PVSeq.single v)
          | none => none)
       | g => some (PVSeq.seq ((sortPairs g).map Prod.snd))) := by
  show dictGet ((ext.foldl recombineStep ([], [])).2.foldl
      (fun fs e => dictInsert fs e.1 (.seq ((sortPairs e.2).map Prod.snd)))
      (ext.foldl recombineStep ([], [])).1) q = _
  rw [secondFold_spec _ _ q (firstFold_ms_nodup ext [] [] (by simp)),
    firstFold_ms ext [] [] q,
    show dictGet ([] : List (String × List (Nat × Value))) q = none from rfl]
  cases hg : groupOf ext q with
  | nil =>
    rw [optCat_nil]
    rw [firstFold_fs ext [] [] q hnd]
    cases dictGet (nonIndexed ext) q <;> rfl
  | cons g0 gs =>
    rw [show optCat none (g0 :: gs) = some (g0 :: gs) from rfl]

lemma insertAfterLe_perm (x : Nat × Value) (l : List (Nat × Value)) :
    List.Perm (insertAfterLe x l) (x :: l) := by
  induction l with
  | nil => exact List.Perm.refl _
  | cons y ys ih =>
    unfold insertAfterLe
    by_cases hle : y.1 ≤ x.1
    · rw [if_pos hle]
      exact (ih.cons y).trans (List.Perm.swap x y ys)
    · rw [if_neg hle]

lemma sortPairs_perm_aux (l : List (Nat × Value)) :
    ∀ acc, List.Perm (l.foldl (fun acc x => insertAfterLe x acc) acc) (acc ++ l) := by
  induction l with
  | nil => intro acc; simp
  | cons x xs ih =>
    intro acc
    rw [List.foldl_cons]
    refine (ih (insertAfterLe x acc)).trans ?_
    refine (((insertAfterLe_perm x acc).append_right xs).trans ?_)
    exact List.perm_middle.symm.trans (List.Perm.refl _)

lemma sortPairs_perm (l : List (Nat × Value)) : List.Perm (sortPairs l) l := by
  have := sortPairs_perm_aux l []
  simpa [sortPairs] using this

lemma insertAfterLe_pairwise (x : Nat × Value) (l : List (Nat × Value))
    (h : List.Pairwise (fun a b => a.1 ≤ b.1) l) :
    List.Pairwise (fun a b => a.1 ≤ b.1) (insertAfterLe x l) := by
  induction l with
  | nil => simp [insertAfterLe]
  | cons y ys ih =>
    rw [List.pairwise_cons] at h
    obtain ⟨hy, hys⟩ := h
    unfold insertAfterLe
    by_cases hle : y.1 ≤ x.1
    · rw [if_pos hle, List.pairwise_cons]
      refine ⟨?_, ih hys⟩
      intro z hz
      rcases List.mem_cons.mp ((insertAfterLe_perm x ys).mem_iff.mp hz) with hz' | hz'
      · exact hz' ▸ hle
      · exact hy z hz'
    · rw [if_neg hle, List.pairwise_cons]
      refine ⟨?_, List.pairwise_cons.mpr ⟨hy, hys⟩⟩
      intro z hz
      rcases List.mem_cons.mp hz with hz' | hz'
      · subst hz'
        omega
      · have := hy z hz'
        omega

lemma sortPairs_pairwise_aux (l : List (Nat × Value)) :
    ∀ acc, List.Pairwise (fun a b => a.1 ≤ b.1) acc →
    List.Pairwise (fun a b => a.1 ≤ b.1)
      (l.foldl (fun acc x => insertAfterLe x acc) acc) := by
  induction l with
  | nil => intro acc h; exact h
  | cons x xs ih =>
    intro acc h
    rw [List.foldl_cons]
    exact ih _ (insertAfterLe_pairwise x acc h)

lemma sortPairs_pairwise (l : List (Nat × Value)) :
    List.Pairwise (fun a b => a.1 ≤ b.1) (sortPairs l) :=
  sortPairs_pairwise_aux l [] (by simp)

lemma pairwise_lt_of_nodup_keys (l : List (Nat × Value))
    (hs : List.Pairwise (fun a b => a.1 ≤ b.1) l)
    (hnd : (l.map Prod.fst).Nodup) :
    List.Pairwise (fun a b => a.1 < b.1) l := by
  have hne : List.Pairwise (fun a b : Nat × Value => a.1 ≠ b.1) l :=
    List.pairwise_map.mp hnd
  exact (hs.and hne).imp (fun h => Nat.lt_of_le_of_ne h.1 h.2)

lemma pairwise_lt_perm_eq : ∀ (l₁ l₂ : List (Nat × Value)), List.Perm l₁ l₂ →
    List.Pairwise (fun a b => a.1 < b.1) l₁ →
    List.Pairwise (fun a b => a.1 < b.1) l₂ → l₁ = l₂ := by
  intro l₁
  induction l₁ with
  | nil =>
    intro l₂ hp _ _
    exact List.Perm.nil_eq hp
  | cons x t ih =>
    intro l₂ hp h1 h2
    cases l₂ with
    | nil =>
      have := hp.length_eq
      simp at this
    | cons y t₂ =>
      by_cases hxy : x = y
      · subst hxy
        rw [ih t₂ hp.cons_inv (List.Pairwise.of_cons h1) (List.Pairwise.of_cons h2)]
      · exfalso
        have hx2 : x ∈ y :: t₂ := hp.subset (List.mem_cons_self _ _)
        have hy1 : y ∈ x :: t := hp.symm.subset (List.mem_cons_self _ _)
        have hxt2 : x ∈ t₂ := by
          rcases List.mem_cons.mp hx2 with h | h
          · exact absurd h hxy
          · exact h
        have hyt : y ∈ t := by
          rcases List.mem_cons.mp hy1 with h | h
          · exact absurd h.symm hxy
          · exact h
        have hlt1 : x.1 < y.1 := (List.pairwise_cons.mp h1).1 y hyt
        have hlt2 : y.1 < x.1 := (List.pairwise_cons.mp h2).1 x hxt2
        omega

lemma sortPairs_perm_eq (g g' : List (Nat × Value)) (hp : List.Perm g g')
    (hnd : (g.map Prod.fst).Nodup) : sortPairs g = sortPairs g' := by
  have hnd1 : ((sortPairs g).map Prod.fst).Nodup :=
    (((sortPairs_perm g).map Prod.fst).nodup_iff).mpr hnd
  have hnd' : (g'.map Prod.fst).Nodup := ((hp.map Prod.fst).nodup_iff).mp hnd
  have hnd2 : ((sortPairs g').map Prod.fst).Nodup :=
    (((sortPairs_perm g').map Prod.fst).nodup_iff).mpr hnd'
  exact pairwise_lt_perm_eq _ _
    ((sortPairs_perm g).trans (hp.trans (sortPairs_perm g').symm))
    (pairwise_lt_of_nodup_keys _ (sortPairs_pairwise g) hnd1)
    (pairwise_lt_of_nodup_keys _ (sortPairs_pairwise g') hnd2)

lemma dictGet_perm {κ ν : Type} [DecidableEq κ] (l l' : List (κ × ν))
    (hp : List.Perm l l') (hnd : (l.map Prod.fst).Nodup) (q : κ) :
    dictGet l q = dictGet l' q := by
  have hnd' : (l'.map Prod.fst).Nodup := ((hp.map Prod.fst).nodup_iff).mp hnd
  cases hg : dictGet l q with
  | some v => exact (mem_dictGet l' hnd' q v (hp.subset (dictGet_mem l q v hg))).symm
  | none =>
    cases hg' : dictGet l' q with
    | none => rfl
    | some v =>
      have := mem_dictGet l hnd q v (hp.symm.subset (dictGet_mem l' q v hg'))
      rw [hg] at this
      exact Option.noConfusion this

/-- C4: every resolved name encoding a base name plus an integer index is
grouped by base and replaced in the output by a single entry mapping the
base to the values of exactly the indices present, in strictly ascending
index order with no padding; names without an index appear unchanged (when
the name is not itself the base of indexed entries); and the output mapping
does not depend on the iteration order of the resolved mapping. -/
theorem pytrial_recombine_mdim (ext ext' : List (String × Value))
    (hnd : (ext.map Prod.fst).Nodup) (hperm : List.Perm ext ext') :
    (∀ b, groupOf ext b ≠ [] → ((groupOf ext b).map Prod.fst).Nodup →
       ∃ sg, List.Perm sg (groupOf ext b) ∧ List.Pairwise (fun x y => x.1 < y.1) sg ∧
         dictGet (recombine ext) b = some (.seq (sg.map Prod.snd))) ∧
    (∀ n v, parseMDName n = none → (n, v) ∈ ext → groupOf ext n = [] →
       dictGet (recombine ext) n = some (.single v)) ∧
    (∀ q, ((groupOf ext q).map Prod.fst).Nodup →
       dictGet (recombine ext') q = dictGet (recombine ext) q) := by
  have hnd' : (ext'.map Prod.fst).Nodup := ((hperm.map Prod.fst).nodup_iff).mp hnd
  refine ⟨?_, ?_, ?_⟩
  · intro b hb hbnd
    refine ⟨sortPairs (groupOf ext b), sortPairs_perm _, ?_, ?_⟩
    · exact pairwise_lt_of_nodup_keys _ (sortPairs_pairwise _)
        ((((sortPairs_perm (groupOf ext b)).map Prod.fst).nodup_iff).mpr hbnd)
    · rw [recombine_get ext hnd b]
      cases hg : groupOf ext b with
      | nil => exact absurd hg hb
      | cons g0 gs => rfl
  · intro n v hparse hmem hgrp
    rw [recombine_get ext hnd n, hgrp]
    have hmemni : (n, v) ∈ nonIndexed ext := by
      unfold nonIndexed
      rw [List.mem_filter]
      exact ⟨hmem, by rw [hparse]; rfl⟩
    have hndni : ((nonIndexed ext).map Prod.fst).Nodup :=
      ((List.filter_sublist ext).map Prod.fst).nodup hnd
    rw [mem_dictGet _ hndni _ _ hmemni]
  · intro q hbnd
    rw [recombine_get ext hnd q, recombine_get ext' hnd' q]
    have hgperm : List.Perm (groupOf ext q) (groupOf ext' q) := hperm.filterMap _
    have hniperm : List.Perm (nonIndexed ext) (nonIndexed ext') := hperm.filter _
    have hndni : ((nonIndexed ext).map Prod.fst).Nodup :=
      ((List.filter_sublist ext).map Prod.fst).nodup hnd
    cases hg : groupOf ext q with
    | nil =>
      have hg' : groupOf ext' q = [] := List.Perm.eq_nil ((hg ▸ hgperm).symm)
      rw [hg']
      rw [dictGet_perm _ _ hniperm hndni q]
    | cons g0 gs =>
      have hg' : groupOf ext' q ≠ [] := by
        intro hh
        have := (hh ▸ hgperm).length_eq
        simp [hg] at this
      cases hgc : groupOf ext' q with
      | nil => exact absurd hgc hg'
      | cons h0 hs =>
        have heq : sortPairs (groupOf ext q) = sortPairs (groupOf ext' q) :=
          sortPairs_perm_eq _ _ hgperm hbnd
        rw [hg, hgc] at heq
        show some (PVSeq.seq ((sortPairs (h0 :: hs)).map Prod.snd)) =
          some (PVSeq.seq ((sortPairs (g0 :: gs)).map Prod.snd))
        rw [heq]

/-- Witness for C4: raw resolved names `x[10], x[2], x[1]` recombine to the
single entry `x ↦ [a, b, c]` ordered by index regardless of resolution
order, and the unindexed name `y` passes through unchanged. -/
theorem pytrial_recombine_mdim_witness :
    dictGet (recombine [("x[10]", "c"), ("x[2]", "b"), ("x[1]", "a"), ("y", "s")]) "y" =
      some (PVSeq.single "s") ∧
    dictGet (recombine [("x[10]", "c"), ("x[2]", "b"), ("x[1]", "a"), ("y", "s")]) "x" =
      some (PVSeq.seq ["a", "b", "c"]) ∧
    dictGet (recombine [("x[1]", "a"), ("y", "s"), ("x[10]", "c"), ("x[2]", "b")]) "x" =
      dictGet (recombine [("x[10]", "c"), ("x[2]", "b"), ("x[1]", "a"), ("y", "s")]) "x" := by
  refine ⟨?_, by decide, ?_⟩
  · exact (pytrial_recombine_mdim
      [("x[10]", "c"), ("x[2]", "b"), ("x[1]", "a"), ("y", "s")]
      [("x[10]", "c"), ("x[2]", "b"), ("x[1]", "a"), ("y", "s")]
      (by decide) (List.Perm.refl _)).2.1 "y" "s" (by decide) (by decide) (by decide)
  · exact (pytrial_recombine_mdim
      [("x[10]", "c"), ("x[2]", "b"), ("x[1]", "a"), ("y", "s")]
      [("x[1]", "a"), ("y", "s"), ("x[10]", "c"), ("x[2]", "b")]
      (by decide) (by decide)).2.2 "x" (by decide)

/-! ### `StudyConfig.to_proto` automated-stopping dispatch
(study_config.py lines 251-258) -/

/-- The proto returned by `AutomatedStoppingConfig.to_proto` (the
automated_stopping module is an external collaborator): a decay-curve spec
or a median spec, payload opaque. -/
inductive AutoStopProto where
  | decayCurve (payload : String)
  | median (payload : String)
deriving DecidableEq, Repr

/-- `isinstance(auto_stop_proto, study_pb2.StudySpec.DecayCurveAutomatedStoppingSpec)`. -/
def isDecayCurve : AutoStopProto → Bool
  | .decayCurve _ => true
  | .median _ => false

def AutoStopProto.payload : AutoStopProto → String
  | .decayCurve p => p
  | .median p => p

/-- The two automated-stopping fields of a `StudySpec` proto. -/
structure StudySpecStopFields where
  decayCurveStoppingSpec : Option String
  medianAutomatedStoppingSpec : Option String
deriving DecidableEq, Repr

/-- study_config.py lines 251-258, translated branch for branch: both the
`if` and the `elif` test the converted proto against
`DecayCurveAutomatedStoppingSpec`; the `elif` body would copy into
`median_automated_stopping_spec`. -/
def toProtoAutoStop (proto : StudySpecStopFields) (cfg : Option AutoStopProto) :
    StudySpecStopFields :=
  match cfg with
  | none => proto
  | some asp =>
    if isDecayCurve asp then
      { proto with decayCurveStoppingSpec := some asp.payload }
    else if isDecayCurve asp then
      { proto with medianAutomatedStoppingSpec := some asp.payload }
    else proto

/-- C9: both branches of the automated-stopping dispatch test the same proto
type, so the median branch is unreachable: `to_proto` never assigns
`median_automated_stopping_spec`, and only a decay-curve result is ever
copied, into `decay_curve_stopping_spec`. -/
theorem to_proto_median_unreachable (proto : StudySpecStopFields)
    (cfg : Option AutoStopProto) :
    (toProtoAutoStop proto cfg).medianAutomatedStoppingSpec =
      proto.medianAutomatedStoppingSpec ∧
    (toProtoAutoStop proto cfg).decayCurveStoppingSpec =
      (match cfg with
       | some asp =>
         if isDecayCurve asp then some asp.payload
         else proto.decayCurveStoppingSpec
       | none => proto.decayCurveStoppingSpec) := by
  cases cfg with
  | none => exact ⟨rfl, rfl⟩
  | some asp =>
    cases asp with
    | decayCurve p => exact ⟨rfl, rfl⟩
    | median p => exact ⟨rfl, rfl⟩

end Vizier
